import Mathlib

/-!
Verification of the Brainfuck JIT pipeline: source filtering (`parse`),
IR translation with run-length folding and loop-bracket matching
(`translate`), peephole loop optimization (`optimize_loop`), and the
byte encodings the code generator emits for data-increment and
data-decrement ops.  Machine integers of the original (i32 op arguments,
u8/u16 immediates) are modelled as Int/Nat with explicit reductions
modulo 2^8 and 2^16 where the original casts truncate.
-/

namespace BfJit

/-- The eleven IR op kinds of the original `BfOpKind` enum. -/
inductive BfOpKind
  | IncPtr
  | DecPtr
  | IncData
  | DecData
  | ReadStdin
  | WriteStdout
  | LoopSetToZero
  | LoopMovePtr
  | LoopMoveData
  | JumpIfDataZero
  | JumpIfDataNotZero
deriving DecidableEq

/-- An IR op: a kind plus an integer argument (an `i32` in the original,
modelled as `Int`). -/
structure BfOp where
  kind : BfOpKind
  argument : Int
deriving DecidableEq

/-- Default op used to model vector indexing `ops[i]` via `List.getD`;
every reachable index is in bounds, so the default is never observed. -/
def dfltOp : BfOp := ⟨.JumpIfDataZero, 0⟩

/-- The eight-character instruction alphabet, `TOKENS` in the original. -/
def TOKENS : List Char := ['>', '<', '+', '-', '.', ',', '[', ']']

/-- The filtering core of the original `parse`: keep exactly the
characters contained in `TOKENS`, in order.  (The original reads the
file line by line; line splitting only removes newline characters,
which are not in the alphabet, so the retained stream is exactly this
filter of the file's characters.) -/
def parse (content : List Char) : List Char :=
  content.filter (fun c => TOKENS.contains c)

/-- The token-to-kind mapping of the original `translate`'s run-length
match arm; brackets and non-alphabet characters have no run kind
(the original panics with "Invalid token" on the latter). -/
def tokenKind (c : Char) : Option BfOpKind :=
  if c = '>' then some .IncPtr
  else if c = '<' then some .DecPtr
  else if c = '+' then some .IncData
  else if c = '-' then some .DecData
  else if c = ',' then some .ReadStdin
  else if c = '.' then some .WriteStdout
  else none

/-- Direct translation of the original `optimize_loop`: given the IR
built so far and the index of the pending loop's `JumpIfDataZero`
placeholder, return the replacement ops (empty when no idiom matches). -/
def optimize_loop (ops : List BfOp) (loop_start : Nat) : List BfOp :=
  let loop_size := ops.length - loop_start
  if loop_size = 2 then
    let repeated_op := ops.getD (loop_start + 1) dfltOp
    match repeated_op.kind with
    | .IncData => [⟨.LoopSetToZero, 0⟩]
    | .DecData => [⟨.LoopSetToZero, 0⟩]
    | .IncPtr => [⟨.LoopMovePtr, repeated_op.argument⟩]
    | .DecPtr => [⟨.LoopMovePtr, -repeated_op.argument⟩]
    | _ => []
  else if loop_size = 5 then
    let op1 := ops.getD (loop_start + 1) dfltOp
    let op2 := ops.getD (loop_start + 2) dfltOp
    let op3 := ops.getD (loop_start + 3) dfltOp
    let op4 := ops.getD (loop_start + 4) dfltOp
    if op1.kind = .DecData ∧ op3.kind = .IncData ∧
        op1.argument = 1 ∧ op3.argument = 1 then
      if op2.kind = .IncPtr ∧ op4.kind = .DecPtr ∧ op2.argument = op4.argument then
        [⟨.LoopMoveData, op2.argument⟩]
      else if op2.kind = .DecPtr ∧ op4.kind = .IncPtr ∧ op2.argument = op4.argument then
        [⟨.LoopMoveData, -op2.argument⟩]
      else []
    else []
  else []

/-- The original's truncating `usize as i32` casts: reduce modulo 2^32
and reinterpret the result as a two's-complement signed value. -/
def i32cast (n : Nat) : Int :=
  if n % 2 ^ 32 < 2 ^ 31 then ((n % 2 ^ 32 : Nat) : Int)
  else ((n % 2 ^ 32 : Nat) : Int) - 2 ^ 32

theorem i32cast_small (n : Nat) (h : n < 2 ^ 31) : i32cast n = (n : Int) := by
  unfold i32cast
  rw [Nat.mod_eq_of_lt (show n < 2 ^ 32 by omega), if_pos h]

/-- Worker for `translate`, one step per iteration of the original's
`while pc < program_size` loop.  Each iteration consumes at least one
input character, so fuel equal to the input length suffices; running
out of fuel is unreachable from `translate`.  The loop-start stack is
a list with its head as the top (the original pushes/pops at the end
of a vector).  Run lengths and jump-target indices are stored through
`i32cast`, exactly as the original's `num_repeats as i32`,
`res.len() as i32` and `offset as i32` casts.  The original's two
panics (unmatched close, invalid token) are modelled as
`Except.error`. -/
def translateGo : Nat → List Char → Nat → List BfOp → List Nat →
    Except String (List BfOp)
  | _, [], _, res, _ => Except.ok res
  | 0, _ :: _, _, _, _ => Except.error "out of fuel"
  | fuel + 1, c :: rest, pc, res, loop_stack =>
    if c = '[' then
      translateGo fuel rest (pc + 1) (res ++ [⟨.JumpIfDataZero, 0⟩])
        (res.length :: loop_stack)
    else if c = ']' then
      match loop_stack with
      | [] => Except.error ("unmatched closing ']' at pc=" ++ toString pc)
      | offset :: stack_rest =>
        let optimized_ops := optimize_loop res offset
        if optimized_ops.length = 0 then
          let old := res.getD offset dfltOp
          translateGo fuel rest (pc + 1)
            ((res.set offset ⟨old.kind, i32cast res.length⟩) ++
              [⟨.JumpIfDataNotZero, i32cast offset⟩])
            stack_rest
        else
          translateGo fuel rest (pc + 1) (res.take offset ++ optimized_ops)
            stack_rest
    else
      match tokenKind c with
      | none => Except.error "Invalid token"
      | some kind =>
        let num_repeats := 1 + (rest.takeWhile (fun x => x == c)).length
        translateGo fuel (rest.dropWhile (fun x => x == c)) (pc + num_repeats)
          (res ++ [⟨kind, i32cast num_repeats⟩]) loop_stack

/-- Translation of the original `translate`: single forward pass over
the filtered token stream. -/
def translate (insts : List Char) : Except String (List BfOp) :=
  translateGo insts.length insts 0 [] []

/-- Little-endian 16-bit emission, the original `emit_u16` (its `u16`
argument modelled as a natural number below 2^16). -/
def emit_u16 (n : Nat) : List Nat := [n % 256, n / 256 % 256]

/-- Bytes the original `compile` emits for one `IncData` op (the
`BfOpKind::IncData` match arm).  The `as u8` / `as u16` casts of the
`i32` argument are the truncations modulo 2^8 / 2^16.  Note that for
arguments not below 65536 neither branch applies and no bytes are
emitted. -/
def compileIncData (argument : Int) : List Nat :=
  if argument < 256 then
    [0x41, 0x80, 0x45, 0x00, (argument % 256).toNat]
  else if argument < 65536 then
    [0x66, 0x41, 0x81, 0x45, 0x00] ++ emit_u16 (argument % 65536).toNat
  else []

/-- Bytes the original `compile` emits for one `DecData` op (the
`BfOpKind::DecData` match arm). -/
def compileDecData (argument : Int) : List Nat :=
  if argument < 256 then
    [0x41, 0x80, 0x6d, 0x00, (argument % 256).toNat]
  else if argument < 65536 then
    [0x66, 0x41, 0x81, 0x6d, 0x00] ++ emit_u16 (argument % 65536).toNat
  else []

/-- Pointwise tape update, modelling a byte store at tape index `i`. -/
def writeTape (t : Int → Nat) (i : Int) (v : Nat) : Int → Nat :=
  fun j => if j = i then v else t j

/-- Reduction of an integer to a byte value, modelling the 8-bit
wrapping arithmetic the generated code performs on tape cells. -/
def wrap8 (n : Int) : Nat := (n % 256).toNat

/-- Runtime state of the generated program: the tape (byte cells,
values kept below 256 by construction), the tape pointer held in a
register, and the bytes remaining on stdin / written to stdout. -/
structure BfState where
  tape : Int → Nat
  ptr : Int
  inp : List Nat
  out : List Nat

/-- Fuel-bounded execution of an IR program, one op per step, as
realized by the instruction sequences `compile` emits for each op:
IncData/DecData are 8-bit wrapping adds on the current cell,
LoopSetToZero stores 0, LoopMoveData adds the current cell into the
cell at the signed offset (8-bit wrapping) and zeroes the source
unless the current cell is already zero, LoopMovePtr repeatedly adds
its delta while the current cell is nonzero, and the two jump ops
transfer control past their matching partner (whose IR index is their
argument) exactly as the emitted relative branches do.  ReadStdin and
WriteStdout perform one single-byte transfer (the emitted code issues
one system call regardless of the op's repeat argument).  Execution
halts when the instruction index passes the end of the program;
`none` means the fuel ran out. -/
def runIR (prog : List BfOp) : Nat → Nat → BfState → Option BfState
  | 0, _, _ => none
  | fuel + 1, ip, s =>
    if ip < prog.length then
      let op := prog.getD ip dfltOp
      match op.kind with
      | .IncPtr => runIR prog fuel (ip + 1) { s with ptr := s.ptr + op.argument }
      | .DecPtr => runIR prog fuel (ip + 1) { s with ptr := s.ptr - op.argument }
      | .IncData => runIR prog fuel (ip + 1)
          { s with tape :=
              writeTape s.tape s.ptr (wrap8 ((s.tape s.ptr : Int) + op.argument)) }
      | .DecData => runIR prog fuel (ip + 1)
          { s with tape :=
              writeTape s.tape s.ptr (wrap8 ((s.tape s.ptr : Int) - op.argument)) }
      | .ReadStdin =>
        match s.inp with
        | [] => runIR prog fuel (ip + 1) s
        | b :: bs => runIR prog fuel (ip + 1)
            { s with tape := writeTape s.tape s.ptr (b % 256), inp := bs }
      | .WriteStdout => runIR prog fuel (ip + 1)
          { s with out := s.out ++ [s.tape s.ptr % 256] }
      | .LoopSetToZero => runIR prog fuel (ip + 1)
          { s with tape := writeTape s.tape s.ptr 0 }
      | .LoopMovePtr =>
        if s.tape s.ptr = 0 then runIR prog fuel (ip + 1) s
        else runIR prog fuel ip { s with ptr := s.ptr + op.argument }
      | .LoopMoveData =>
        if s.tape s.ptr = 0 then runIR prog fuel (ip + 1) s
        else
          let dest := s.ptr + op.argument
          let t1 := writeTape s.tape dest
            (wrap8 ((s.tape dest : Int) + (s.tape s.ptr : Int)))
          runIR prog fuel (ip + 1) { s with tape := writeTape t1 s.ptr 0 }
      | .JumpIfDataZero =>
        if s.tape s.ptr = 0 then runIR prog fuel (op.argument.toNat + 1) s
        else runIR prog fuel (ip + 1) s
      | .JumpIfDataNotZero =>
        if s.tape s.ptr = 0 then runIR prog fuel (ip + 1) s
        else runIR prog fuel (op.argument.toNat + 1) s
    else some s

/-- The one-op IR the optimizer produces for the set-zero idiom. -/
def setZeroIR : List BfOp := [⟨.LoopSetToZero, 0⟩]

/-- The one-op IR the optimizer produces for the loop "[->+<]". -/
def moveDataIR : List BfOp := [⟨.LoopMoveData, 1⟩]

/-- The generic conditional-jump form of the loop "[-]" as the
translator's generic finalization would build it (placeholder argument
= index of the JumpIfDataNotZero op, whose argument is the start); the
optimizer replaces it, so it is written out here for comparison. -/
def decLoopIR : List BfOp :=
  [⟨.JumpIfDataZero, 2⟩, ⟨.DecData, 1⟩, ⟨.JumpIfDataNotZero, 0⟩]

/-- The generic conditional-jump form of the loop "[+]". -/
def incLoopIR : List BfOp :=
  [⟨.JumpIfDataZero, 2⟩, ⟨.IncData, 1⟩, ⟨.JumpIfDataNotZero, 0⟩]

/-- The generic conditional-jump form of the loop "[->+<]". -/
def moveLoopIR : List BfOp :=
  [⟨.JumpIfDataZero, 5⟩, ⟨.DecData, 1⟩, ⟨.IncPtr, 1⟩, ⟨.IncData, 1⟩,
    ⟨.DecPtr, 1⟩, ⟨.JumpIfDataNotZero, 0⟩]

theorem writeTape_same (t : Int → Nat) (i : Int) (v : Nat) :
    writeTape t i v i = v := by
  simp [writeTape]

theorem writeTape_ne (t : Int → Nat) {i j : Int} (v : Nat) (h : j ≠ i) :
    writeTape t i v j = t j := by
  simp [writeTape, h]

theorem writeTape_self (t : Int → Nat) (i : Int) (v : Nat) (h : t i = v) :
    writeTape t i v = t := by
  funext j
  by_cases hj : j = i
  · subst hj; simp [writeTape, h]
  · simp [writeTape, hj]

theorem writeTape_collapse (t : Int → Nat) (i : Int) (a b : Nat) :
    writeTape (writeTape t i a) i b = writeTape t i b := by
  funext j
  by_cases hj : j = i <;> simp [writeTape, hj]

theorem writeTape_comm (t : Int → Nat) {i j : Int} (h : i ≠ j) (a b : Nat) :
    writeTape (writeTape t i a) j b = writeTape (writeTape t j b) i a := by
  funext x
  by_cases hx : x = i <;> by_cases hx2 : x = j
  · exact absurd (hx.symm.trans hx2) h
  all_goals simp [writeTape, hx, hx2, h, Ne.symm h]

theorem writeTape_outer (t : Int → Nat) {i j : Int} (h : i ≠ j) (a b c : Nat) :
    writeTape (writeTape (writeTape t i a) j b) i c =
      writeTape (writeTape t j b) i c := by
  funext x
  by_cases hx : x = i <;> by_cases hx2 : x = j
  · exact absurd (hx.symm.trans hx2) h
  all_goals simp [writeTape, hx, hx2, h, Ne.symm h]

theorem wrap8_pred (v : Nat) (h1 : 1 ≤ v) (h2 : v ≤ 255) :
    wrap8 ((v : Int) - 1) = v - 1 := by
  simp only [wrap8]; omega

theorem wrap8_succ (v : Nat) :
    wrap8 ((v : Int) + 1) = (v + 1) % 256 := by
  simp only [wrap8]; omega

theorem wrap8_add (a b : Nat) : wrap8 ((a : Int) + (b : Int)) = (a + b) % 256 := by
  simp only [wrap8]; omega

theorem runIR_halt (prog : List BfOp) (fuel ip : Nat) (t : Int → Nat) (p : Int)
    (i o : List Nat) (h : prog.length ≤ ip) :
    runIR prog (fuel + 1) ip ⟨t, p, i, o⟩ = some ⟨t, p, i, o⟩ := by
  simp [runIR, Nat.not_lt.mpr h]

theorem runIR_step_IncPtr (prog : List BfOp) (fuel ip : Nat) (t : Int → Nat)
    (p : Int) (i o : List Nat) (a : Int) (hip : ip < prog.length)
    (hop : prog.getD ip dfltOp = ⟨.IncPtr, a⟩) :
    runIR prog (fuel + 1) ip ⟨t, p, i, o⟩ =
      runIR prog fuel (ip + 1) ⟨t, p + a, i, o⟩ := by
  simp only [runIR, hop]
  rw [if_pos hip]

theorem runIR_step_DecPtr (prog : List BfOp) (fuel ip : Nat) (t : Int → Nat)
    (p : Int) (i o : List Nat) (a : Int) (hip : ip < prog.length)
    (hop : prog.getD ip dfltOp = ⟨.DecPtr, a⟩) :
    runIR prog (fuel + 1) ip ⟨t, p, i, o⟩ =
      runIR prog fuel (ip + 1) ⟨t, p - a, i, o⟩ := by
  simp only [runIR, hop]
  rw [if_pos hip]

theorem runIR_step_IncData (prog : List BfOp) (fuel ip : Nat) (t : Int → Nat)
    (p : Int) (i o : List Nat) (a : Int) (hip : ip < prog.length)
    (hop : prog.getD ip dfltOp = ⟨.IncData, a⟩) :
    runIR prog (fuel + 1) ip ⟨t, p, i, o⟩ =
      runIR prog fuel (ip + 1) ⟨writeTape t p (wrap8 ((t p : Int) + a)), p, i, o⟩ := by
  simp only [runIR, hop]
  rw [if_pos hip]

theorem runIR_step_DecData (prog : List BfOp) (fuel ip : Nat) (t : Int → Nat)
    (p : Int) (i o : List Nat) (a : Int) (hip : ip < prog.length)
    (hop : prog.getD ip dfltOp = ⟨.DecData, a⟩) :
    runIR prog (fuel + 1) ip ⟨t, p, i, o⟩ =
      runIR prog fuel (ip + 1) ⟨writeTape t p (wrap8 ((t p : Int) - a)), p, i, o⟩ := by
  simp only [runIR, hop]
  rw [if_pos hip]

theorem runIR_step_SetZero (prog : List BfOp) (fuel ip : Nat) (t : Int → Nat)
    (p : Int) (i o : List Nat) (hip : ip < prog.length)
    (hop : prog.getD ip dfltOp = ⟨.LoopSetToZero, 0⟩) :
    runIR prog (fuel + 1) ip ⟨t, p, i, o⟩ =
      runIR prog fuel (ip + 1) ⟨writeTape t p 0, p, i, o⟩ := by
  simp only [runIR, hop]
  rw [if_pos hip]

theorem runIR_step_MoveData_zero (prog : List BfOp) (fuel ip : Nat)
    (t : Int → Nat) (p : Int) (i o : List Nat) (a : Int) (hip : ip < prog.length)
    (hop : prog.getD ip dfltOp = ⟨.LoopMoveData, a⟩) (hz : t p = 0) :
    runIR prog (fuel + 1) ip ⟨t, p, i, o⟩ = runIR prog fuel (ip + 1) ⟨t, p, i, o⟩ := by
  simp only [runIR, hop]
  rw [if_pos hip]
  simp [hz]

theorem runIR_step_MoveData_pos (prog : List BfOp) (fuel ip : Nat)
    (t : Int → Nat) (p : Int) (i o : List Nat) (a : Int) (hip : ip < prog.length)
    (hop : prog.getD ip dfltOp = ⟨.LoopMoveData, a⟩) (hz : t p ≠ 0) :
    runIR prog (fuel + 1) ip ⟨t, p, i, o⟩ =
      runIR prog fuel (ip + 1)
        ⟨writeTape (writeTape t (p + a) (wrap8 ((t (p + a) : Int) + (t p : Int)))) p 0,
          p, i, o⟩ := by
  simp only [runIR, hop]
  rw [if_pos hip]
  simp [hz]

theorem runIR_step_JumpZero_taken (prog : List BfOp) (fuel ip : Nat)
    (t : Int → Nat) (p : Int) (i o : List Nat) (a : Int) (hip : ip < prog.length)
    (hop : prog.getD ip dfltOp = ⟨.JumpIfDataZero, a⟩) (hz : t p = 0) :
    runIR prog (fuel + 1) ip ⟨t, p, i, o⟩ =
      runIR prog fuel (a.toNat + 1) ⟨t, p, i, o⟩ := by
  simp only [runIR, hop]
  rw [if_pos hip]
  simp [hz]

theorem runIR_step_JumpZero_pos (prog : List BfOp) (fuel ip : Nat)
    (t : Int → Nat) (p : Int) (i o : List Nat) (a : Int) (hip : ip < prog.length)
    (hop : prog.getD ip dfltOp = ⟨.JumpIfDataZero, a⟩) (hz : t p ≠ 0) :
    runIR prog (fuel + 1) ip ⟨t, p, i, o⟩ =
      runIR prog fuel (ip + 1) ⟨t, p, i, o⟩ := by
  simp only [runIR, hop]
  rw [if_pos hip]
  simp [hz]

theorem runIR_step_JumpNotZero_taken (prog : List BfOp) (fuel ip : Nat)
    (t : Int → Nat) (p : Int) (i o : List Nat) (a : Int) (hip : ip < prog.length)
    (hop : prog.getD ip dfltOp = ⟨.JumpIfDataNotZero, a⟩) (hz : t p ≠ 0) :
    runIR prog (fuel + 1) ip ⟨t, p, i, o⟩ =
      runIR prog fuel (a.toNat + 1) ⟨t, p, i, o⟩ := by
  simp only [runIR, hop]
  rw [if_pos hip]
  simp [hz]

theorem runIR_step_JumpNotZero_zero (prog : List BfOp) (fuel ip : Nat)
    (t : Int → Nat) (p : Int) (i o : List Nat) (a : Int) (hip : ip < prog.length)
    (hop : prog.getD ip dfltOp = ⟨.JumpIfDataNotZero, a⟩) (hz : t p = 0) :
    runIR prog (fuel + 1) ip ⟨t, p, i, o⟩ =
      runIR prog fuel (ip + 1) ⟨t, p, i, o⟩ := by
  simp only [runIR, hop]
  rw [if_pos hip]
  simp [hz]

/-- One pass of the generic "[-]" loop body removes one from the cell;
iterating from instruction 1 with cell value v + 1 ends at the halt
index 3 with the cell set to zero, using 2 steps per iteration. -/
theorem decLoop_iter (v' : Nat) :
    ∀ (t : Int → Nat) (p : Int) (i o : List Nat) (fuel : Nat),
      t p = v' + 1 → v' + 1 ≤ 255 →
      runIR decLoopIR (fuel + (2 * v' + 2)) 1 ⟨t, p, i, o⟩ =
        runIR decLoopIR fuel 3 ⟨writeTape t p 0, p, i, o⟩ := by
  induction v' with
  | zero =>
    intro t p i o fuel ht _
    rw [show fuel + (2 * 0 + 2) = (fuel + 1) + 1 from by ring]
    rw [runIR_step_DecData decLoopIR (fuel + 1) 1 t p i o 1 (by decide) rfl]
    rw [ht, wrap8_pred (0 + 1) (by decide) (by decide)]
    norm_num
    rw [runIR_step_JumpNotZero_zero decLoopIR fuel 2 (writeTape t p 0) p i o 0
      (by decide) rfl (writeTape_same t p 0)]
  | succ n ih =>
    intro t p i o fuel ht hle
    rw [show fuel + (2 * (n + 1) + 2) = ((fuel + (2 * n + 2)) + 1) + 1 from by ring]
    rw [runIR_step_DecData decLoopIR ((fuel + (2 * n + 2)) + 1) 1 t p i o 1
      (by decide) rfl]
    rw [ht, wrap8_pred (n + 1 + 1) (by omega) (by omega)]
    norm_num
    rw [runIR_step_JumpNotZero_taken decLoopIR (fuel + (2 * n + 2)) 2
      (writeTape t p (n + 1)) p i o 0 (by decide) rfl
      (by rw [writeTape_same]; omega)]
    show runIR decLoopIR (fuel + (2 * n + 2)) 1 ⟨writeTape t p (n + 1), p, i, o⟩ = _
    rw [ih (writeTape t p (n + 1)) p i o fuel (writeTape_same t p (n + 1)) (by omega)]
    rw [writeTape_collapse]

/-- One pass of the generic "[+]" loop body adds one to the cell mod
256; with k + 1 additions remaining until the cell wraps to zero,
iterating from instruction 1 ends at the halt index 3 with the cell
set to zero. -/
theorem incLoop_iter (k : Nat) :
    ∀ (t : Int → Nat) (p : Int) (i o : List Nat) (fuel : Nat) (v : Nat),
      t p = v → v + (k + 1) = 256 →
      runIR incLoopIR (fuel + (2 * k + 2)) 1 ⟨t, p, i, o⟩ =
        runIR incLoopIR fuel 3 ⟨writeTape t p 0, p, i, o⟩ := by
  induction k with
  | zero =>
    intro t p i o fuel v ht hv
    have hv255 : v = 255 := by omega
    subst hv255
    rw [show fuel + (2 * 0 + 2) = (fuel + 1) + 1 from by ring]
    rw [runIR_step_IncData incLoopIR (fuel + 1) 1 t p i o 1 (by decide) rfl]
    rw [ht, wrap8_succ 255]
    norm_num
    rw [runIR_step_JumpNotZero_zero incLoopIR fuel 2 (writeTape t p 0) p i o 0
      (by decide) rfl (writeTape_same t p 0)]
  | succ n ih =>
    intro t p i o fuel v ht hv
    rw [show fuel + (2 * (n + 1) + 2) = ((fuel + (2 * n + 2)) + 1) + 1 from by ring]
    rw [runIR_step_IncData incLoopIR ((fuel + (2 * n + 2)) + 1) 1 t p i o 1
      (by decide) rfl]
    rw [ht, wrap8_succ v, Nat.mod_eq_of_lt (by omega : v + 1 < 256)]
    rw [runIR_step_JumpNotZero_taken incLoopIR (fuel + (2 * n + 2)) 2
      (writeTape t p (v + 1)) p i o 0 (by decide) rfl
      (by rw [writeTape_same]; omega)]
    show runIR incLoopIR (fuel + (2 * n + 2)) 1 ⟨writeTape t p (v + 1), p, i, o⟩ = _
    rw [ih (writeTape t p (v + 1)) p i o fuel (v + 1) (writeTape_same t p (v + 1))
      (by omega)]
    rw [writeTape_collapse]

/-- C6: for every tape cell value v in 0..255, the translator rewrites
both "[-]" and "[+]" to the single LoopSetToZero op, and executing
that op and executing either generic conditional-jump loop all halt in
the identical final state: the cell at the pointer holds 0 and the
pointer is unchanged. -/
theorem loop_set_zero_equiv (v : Nat) (t : Int → Nat) (p : Int)
    (i o : List Nat) (hv : v < 256) (ht : t p = v) :
    translate ['[', '-', ']'] = Except.ok setZeroIR ∧
    translate ['[', '+', ']'] = Except.ok setZeroIR ∧
    (∃ fuel, runIR setZeroIR fuel 0 ⟨t, p, i, o⟩ =
      some ⟨writeTape t p 0, p, i, o⟩) ∧
    (∃ fuel, runIR decLoopIR fuel 0 ⟨t, p, i, o⟩ =
      some ⟨writeTape t p 0, p, i, o⟩) ∧
    (∃ fuel, runIR incLoopIR fuel 0 ⟨t, p, i, o⟩ =
      some ⟨writeTape t p 0, p, i, o⟩) ∧
    writeTape t p 0 p = 0 := by
  refine ⟨rfl, rfl, ?_, ?_, ?_, writeTape_same t p 0⟩
  · refine ⟨2, ?_⟩
    rw [show (2 : Nat) = (0 + 1) + 1 from rfl]
    rw [runIR_step_SetZero setZeroIR (0 + 1) 0 t p i o (by decide) rfl]
    exact runIR_halt setZeroIR 0 1 (writeTape t p 0) p i o (by decide)
  · cases v with
    | zero =>
      refine ⟨2, ?_⟩
      rw [show (2 : Nat) = (0 + 1) + 1 from rfl]
      rw [runIR_step_JumpZero_taken decLoopIR (0 + 1) 0 t p i o 2 (by decide)
        rfl ht]
      rw [writeTape_self t p 0 ht]
      exact runIR_halt decLoopIR 0 3 t p i o (by decide)
    | succ v' =>
      refine ⟨((0 + 1) + (2 * v' + 2)) + 1, ?_⟩
      rw [runIR_step_JumpZero_pos decLoopIR ((0 + 1) + (2 * v' + 2)) 0 t p i o 2
        (by decide) rfl (by omega)]
      rw [decLoop_iter v' t p i o (0 + 1) ht (by omega)]
      exact runIR_halt decLoopIR 0 3 (writeTape t p 0) p i o (by decide)
  · cases v with
    | zero =>
      refine ⟨2, ?_⟩
      rw [show (2 : Nat) = (0 + 1) + 1 from rfl]
      rw [runIR_step_JumpZero_taken incLoopIR (0 + 1) 0 t p i o 2 (by decide)
        rfl ht]
      rw [writeTape_self t p 0 ht]
      exact runIR_halt incLoopIR 0 3 t p i o (by decide)
    | succ v' =>
      refine ⟨((0 + 1) + (2 * (255 - (v' + 1)) + 2)) + 1, ?_⟩
      rw [runIR_step_JumpZero_pos incLoopIR ((0 + 1) + (2 * (255 - (v' + 1)) + 2)) 0
        t p i o 2 (by decide) rfl (by omega)]
      rw [incLoop_iter (255 - (v' + 1)) t p i o (0 + 1) (v' + 1) ht (by omega)]
      exact runIR_halt incLoopIR 0 3 (writeTape t p 0) p i o (by decide)

/-- Witness for C6 at cell value 5 on a concrete tape. -/
theorem loop_set_zero_equiv_witness :
    translate ['[', '-', ']'] = Except.ok setZeroIR ∧
    translate ['[', '+', ']'] = Except.ok setZeroIR ∧
    (∃ fuel, runIR setZeroIR fuel 0
        ⟨fun j => if j = 0 then 5 else 0, 0, [], []⟩ =
      some ⟨writeTape (fun j => if j = 0 then 5 else 0) 0 0, 0, [], []⟩) ∧
    (∃ fuel, runIR decLoopIR fuel 0
        ⟨fun j => if j = 0 then 5 else 0, 0, [], []⟩ =
      some ⟨writeTape (fun j => if j = 0 then 5 else 0) 0 0, 0, [], []⟩) ∧
    (∃ fuel, runIR incLoopIR fuel 0
        ⟨fun j => if j = 0 then 5 else 0, 0, [], []⟩ =
      some ⟨writeTape (fun j => if j = 0 then 5 else 0) 0 0, 0, [], []⟩) ∧
    writeTape (fun j => if j = 0 then 5 else 0) 0 0 0 = 0 :=
  loop_set_zero_equiv 5 (fun j => if j = 0 then 5 else 0) 0 [] []
    (by decide) (by decide)

/-- One pass of the generic "[->+<]" loop body moves one unit from the
source cell to the destination cell; iterating from instruction 1 with
source value v + 1 halts at index 6 with the destination increased by
v + 1 mod 256, the source zeroed, and the pointer back at p. -/
theorem moveLoop_iter (v' : Nat) :
    ∀ (t : Int → Nat) (p : Int) (i o : List Nat) (fuel : Nat) (d : Nat),
      t p = v' + 1 → v' + 1 ≤ 255 → t (p + 1) = d → d ≤ 255 →
      runIR moveLoopIR (fuel + (5 * v' + 5)) 1 ⟨t, p, i, o⟩ =
        runIR moveLoopIR fuel 6
          ⟨writeTape (writeTape t (p + 1) ((d + (v' + 1)) % 256)) p 0, p, i, o⟩ := by
  induction v' with
  | zero =>
    intro t p i o fuel d ht _ htd hd
    rw [show fuel + (5 * 0 + 5) = (((((fuel + 1) + 1) + 1) + 1) + 1) from by ring]
    rw [runIR_step_DecData moveLoopIR ((((fuel + 1) + 1) + 1) + 1) 1 t p i o 1
      (by decide) rfl]
    rw [ht, wrap8_pred (0 + 1) (by decide) (by decide)]
    norm_num
    rw [runIR_step_IncPtr moveLoopIR (((fuel + 1) + 1) + 1) 2
      (writeTape t p 0) p i o 1 (by decide) rfl]
    rw [runIR_step_IncData moveLoopIR ((fuel + 1) + 1) 3
      (writeTape t p 0) (p + 1) i o 1 (by decide) rfl]
    rw [writeTape_ne t 0 (show p + 1 ≠ p from by omega), htd, wrap8_succ d]
    rw [runIR_step_DecPtr moveLoopIR (fuel + 1) 4
      (writeTape (writeTape t p 0) (p + 1) ((d + 1) % 256)) (p + 1) i o 1
      (by decide) rfl]
    rw [add_sub_cancel_right]
    rw [runIR_step_JumpNotZero_zero moveLoopIR fuel 5
      (writeTape (writeTape t p 0) (p + 1) ((d + 1) % 256)) p i o 0
      (by decide) rfl
      (by rw [writeTape_ne _ _ (show p ≠ p + 1 from by omega), writeTape_same])]
    rw [writeTape_comm t (show p ≠ p + 1 from by omega) 0 ((d + 1) % 256)]
  | succ n ih =>
    intro t p i o fuel d ht hle htd hd
    rw [show fuel + (5 * (n + 1) + 5) =
      ((((((fuel + (5 * n + 5)) + 1) + 1) + 1) + 1) + 1) from by ring]
    rw [runIR_step_DecData moveLoopIR (((((fuel + (5 * n + 5)) + 1) + 1) + 1) + 1)
      1 t p i o 1 (by decide) rfl]
    rw [ht, wrap8_pred (n + 1 + 1) (by omega) (by omega)]
    norm_num
    rw [runIR_step_IncPtr moveLoopIR ((((fuel + (5 * n + 5)) + 1) + 1) + 1) 2
      (writeTape t p (n + 1)) p i o 1 (by decide) rfl]
    rw [runIR_step_IncData moveLoopIR (((fuel + (5 * n + 5)) + 1) + 1) 3
      (writeTape t p (n + 1)) (p + 1) i o 1 (by decide) rfl]
    rw [writeTape_ne t (n + 1) (show p + 1 ≠ p from by omega), htd, wrap8_succ d]
    rw [runIR_step_DecPtr moveLoopIR ((fuel + (5 * n + 5)) + 1) 4
      (writeTape (writeTape t p (n + 1)) (p + 1) ((d + 1) % 256)) (p + 1) i o 1
      (by decide) rfl]
    rw [add_sub_cancel_right]
    rw [runIR_step_JumpNotZero_taken moveLoopIR (fuel + (5 * n + 5)) 5
      (writeTape (writeTape t p (n + 1)) (p + 1) ((d + 1) % 256)) p i o 0
      (by decide) rfl
      (by rw [writeTape_ne _ _ (show p ≠ p + 1 from by omega), writeTape_same]
          omega)]
    show runIR moveLoopIR (fuel + (5 * n + 5)) 1
      ⟨writeTape (writeTape t p (n + 1)) (p + 1) ((d + 1) % 256), p, i, o⟩ = _
    rw [ih (writeTape (writeTape t p (n + 1)) (p + 1) ((d + 1) % 256)) p i o fuel
      ((d + 1) % 256)
      (by rw [writeTape_ne _ _ (show p ≠ p + 1 from by omega), writeTape_same])
      (by omega) (writeTape_same _ _ _) (by omega)]
    rw [writeTape_collapse]
    rw [show ((d + 1) % 256 + (n + 1)) % 256 = (d + (n + 1 + 1)) % 256 from by omega]
    rw [writeTape_outer t (show p ≠ p + 1 from by omega)]

/-- C5: for the loop "[->+<]", for every source value s in 0..255 and
destination value d in 0..255, the translator rewrites the loop to the
single LoopMoveData op, and executing that op and executing the
generic conditional-jump loop both halt in the identical final state:
destination cell (d + s) mod 256, source cell 0, pointer restored
to p. -/
theorem loop_move_data_equiv (s d : Nat) (t : Int → Nat) (p : Int)
    (i o : List Nat) (hs : s < 256) (hd : d < 256)
    (hts : t p = s) (htd : t (p + 1) = d) :
    translate ['[', '-', '>', '+', '<', ']'] = Except.ok moveDataIR ∧
    (∃ fuel, runIR moveDataIR fuel 0 ⟨t, p, i, o⟩ =
      some ⟨writeTape (writeTape t (p + 1) ((d + s) % 256)) p 0, p, i, o⟩) ∧
    (∃ fuel, runIR moveLoopIR fuel 0 ⟨t, p, i, o⟩ =
      some ⟨writeTape (writeTape t (p + 1) ((d + s) % 256)) p 0, p, i, o⟩) ∧
    writeTape (writeTape t (p + 1) ((d + s) % 256)) p 0 (p + 1) = (d + s) % 256 ∧
    writeTape (writeTape t (p + 1) ((d + s) % 256)) p 0 p = 0 := by
  refine ⟨rfl, ?_, ?_, ?_, writeTape_same _ _ _⟩
  · cases s with
    | zero =>
      refine ⟨2, ?_⟩
      rw [show (2 : Nat) = (0 + 1) + 1 from rfl]
      rw [runIR_step_MoveData_zero moveDataIR (0 + 1) 0 t p i o 1 (by decide)
        rfl hts]
      rw [show (d + 0) % 256 = d from by omega, writeTape_self t (p + 1) d htd,
        writeTape_self t p 0 hts]
      exact runIR_halt moveDataIR 0 1 t p i o (by decide)
    | succ n =>
      refine ⟨2, ?_⟩
      rw [show (2 : Nat) = (0 + 1) + 1 from rfl]
      rw [runIR_step_MoveData_pos moveDataIR (0 + 1) 0 t p i o 1 (by decide)
        rfl (by omega)]
      rw [hts, htd, wrap8_add d (n + 1)]
      exact runIR_halt moveDataIR 0 1 _ p i o (by decide)
  · cases s with
    | zero =>
      refine ⟨2, ?_⟩
      rw [show (2 : Nat) = (0 + 1) + 1 from rfl]
      rw [runIR_step_JumpZero_taken moveLoopIR (0 + 1) 0 t p i o 5 (by decide)
        rfl hts]
      rw [show (d + 0) % 256 = d from by omega, writeTape_self t (p + 1) d htd,
        writeTape_self t p 0 hts]
      exact runIR_halt moveLoopIR 0 6 t p i o (by decide)
    | succ n =>
      refine ⟨((0 + 1) + (5 * n + 5)) + 1, ?_⟩
      rw [runIR_step_JumpZero_pos moveLoopIR ((0 + 1) + (5 * n + 5)) 0 t p i o 5
        (by decide) rfl (by omega)]
      rw [moveLoop_iter n t p i o (0 + 1) d hts (by omega) htd (by omega)]
      exact runIR_halt moveLoopIR 0 6 _ p i o (by decide)
  · rw [writeTape_ne _ _ (show p + 1 ≠ p from by omega), writeTape_same]

/-- Witness for C5 with source 5 and destination 7 on a concrete tape. -/
theorem loop_move_data_equiv_witness :
    translate ['[', '-', '>', '+', '<', ']'] = Except.ok moveDataIR ∧
    (∃ fuel, runIR moveDataIR fuel 0
        ⟨fun j => if j = 0 then 5 else if j = 1 then 7 else 0, 0, [], []⟩ =
      some ⟨writeTape (writeTape (fun j => if j = 0 then 5 else if j = 1 then 7 else 0)
        (0 + 1) ((7 + 5) % 256)) 0 0, 0, [], []⟩) ∧
    (∃ fuel, runIR moveLoopIR fuel 0
        ⟨fun j => if j = 0 then 5 else if j = 1 then 7 else 0, 0, [], []⟩ =
      some ⟨writeTape (writeTape (fun j => if j = 0 then 5 else if j = 1 then 7 else 0)
        (0 + 1) ((7 + 5) % 256)) 0 0, 0, [], []⟩) ∧
    writeTape (writeTape (fun j => if j = 0 then 5 else if j = 1 then 7 else 0)
      (0 + 1) ((7 + 5) % 256)) 0 0 (0 + 1) = (7 + 5) % 256 ∧
    writeTape (writeTape (fun j => if j = 0 then 5 else if j = 1 then 7 else 0)
      (0 + 1) ((7 + 5) % 256)) 0 0 0 = 0 :=
  loop_move_data_equiv 5 7 (fun j => if j = 0 then 5 else if j = 1 then 7 else 0)
    0 [] [] (by decide) (by decide) (by decide) (by decide)

/-- C1: a token sequence with an unmatched loop-open is claimed to make
translation fail with an unmatched-open error.  The code has no
end-of-pass emptiness check on the loop-start stack: translating the
single token sequence consisting of one loop-open succeeds and returns
an IR containing the unresolved placeholder. -/
theorem translate_single_open_succeeds :
    translate ['['] = Except.ok [⟨.JumpIfDataZero, 0⟩] := rfl

/-- C2: the claim requires the set-zero rewrite only when the body op's
repeat-count argument is exactly 1.  The code never inspects that
argument: a closed loop whose body is one DecData op with argument 2
is still replaced by LoopSetToZero instead of being left generic. -/
theorem optimize_loop_setzero_ignores_argument :
    optimize_loop [⟨.JumpIfDataZero, 0⟩, ⟨.DecData, 2⟩] 0 =
      [⟨.LoopSetToZero, 0⟩] ∧
    optimize_loop [⟨.JumpIfDataZero, 0⟩, ⟨.IncData, 7⟩] 0 ≠ [] := by
  exact ⟨rfl, by decide⟩

/-- C3: the claim requires an 8-bit wrapping add of the repeat count
modulo 256 and no 16-bit immediate encoding.  The code generator emits
a 16-bit immediate add/sub (operand-size prefix 0x66, opcode 0x81) onto
the one-byte cell for arguments in [256, 65536): at argument 256 it
emits the 7-byte 16-bit form with immediate bytes 00 01 rather than an
8-bit add of 256 mod 256 = 0. -/
theorem compile_data_16bit_immediate :
    compileIncData 256 = [0x66, 0x41, 0x81, 0x45, 0x00, 0x00, 0x01] ∧
    compileDecData 256 = [0x66, 0x41, 0x81, 0x6d, 0x00, 0x00, 0x01] := by
  exact ⟨rfl, rfl⟩

/-- C4: for an IncData or DecData op whose argument is at least 65536,
neither branch of the size test in the code generator applies, so zero
machine-code bytes are emitted and the op is silently dropped. -/
theorem compile_data_large_arg_empty (argument : Int)
    (h : 65536 ≤ argument) :
    compileIncData argument = [] ∧ compileDecData argument = [] := by
  have h1 : ¬ argument < 256 := by omega
  have h2 : ¬ argument < 65536 := by omega
  simp [compileIncData, compileDecData, h1, h2]

/-- Witness for C4 at argument 65536. -/
theorem compile_data_large_arg_empty_witness :
    compileIncData 65536 = [] ∧ compileDecData 65536 = [] :=
  compile_data_large_arg_empty 65536 (by decide)

/-- C10: the source filter keeps only alphabet characters, preserves
relative order (its output is a sublist of its input), and is
idempotent. -/
theorem parse_filter_props (content : List Char) :
    (∀ c ∈ parse content, c ∈ TOKENS) ∧
    (parse content).Sublist content ∧
    parse (parse content) = parse content := by
  refine ⟨?_, List.filter_sublist content, ?_⟩
  · intro c hc
    have := List.of_mem_filter hc
    simpa [List.contains_iff_exists_mem_beq] using this
  · unfold parse
    rw [List.filter_filter]
    simp

/-- Witness for C10 on a concrete mixed input. -/
theorem parse_filter_props_witness :
    (∀ c ∈ parse ['a', '+', 'b', '[', '!'], c ∈ TOKENS) ∧
    (parse ['a', '+', 'b', '[', '!']).Sublist ['a', '+', 'b', '[', '!'] ∧
    parse (parse ['a', '+', 'b', '[', '!']) = parse ['a', '+', 'b', '[', '!'] :=
  parse_filter_props ['a', '+', 'b', '[', '!']

theorem getD_set_eq (x d : BfOp) : ∀ (l : List BfOp) (m : Nat), m < l.length →
    (l.set m x).getD m d = x
  | _ :: _, 0, _ => rfl
  | _ :: l, m + 1, h => getD_set_eq x d l m (by simpa using h)

theorem getD_set_ne (x d : BfOp) : ∀ (l : List BfOp) (m n : Nat), m ≠ n →
    (l.set m x).getD n d = l.getD n d
  | [], _, _, _ => by simp
  | _ :: _, 0, 0, h => absurd rfl h
  | _ :: _, 0, _ + 1, _ => rfl
  | _ :: _, _ + 1, 0, _ => rfl
  | _ :: l, m + 1, n + 1, h => getD_set_ne x d l m n (fun hc => h (by omega))

theorem getD_take (d : BfOp) : ∀ (l : List BfOp) (k n : Nat), n < k →
    (l.take k).getD n d = l.getD n d
  | [], _, _, _ => by simp
  | _ :: _, k + 1, 0, _ => rfl
  | _ :: l, k + 1, n + 1, h => getD_take d l k n (by omega)

theorem getD_append_sing (l : List BfOp) (x d : BfOp) :
    (l ++ [x]).getD l.length d = x := by
  rw [List.getD_append_right l [x] d l.length (le_refl _)]
  simp

/-- A mutually pointing pair of loop-jump ops: the JumpIfDataZero at
index i holds the index j of its JumpIfDataNotZero partner as its
argument, and that partner holds i. -/
def pairOK (res : List BfOp) (i j : Nat) : Prop :=
  i < j ∧ j < res.length ∧
  res.getD i dfltOp = ⟨.JumpIfDataZero, (j : Int)⟩ ∧
  res.getD j dfltOp = ⟨.JumpIfDataNotZero, (i : Int)⟩

/-- Kinds whose argument is a repeat count produced by run-length
folding. -/
def isRunKind (k : BfOpKind) : Prop :=
  k = .IncPtr ∨ k = .DecPtr ∨ k = .IncData ∨ k = .DecData ∨
  k = .ReadStdin ∨ k = .WriteStdout

instance (k : BfOpKind) : Decidable (isRunKind k) := by
  unfold isRunKind; infer_instance

/-- Bracket balance check for a token stream, starting from d already
open loops: every loop-close finds an open loop and every open loop is
eventually closed. -/
def bfBalanced : List Char → Nat → Bool
  | [], d => d == 0
  | c :: rest, d =>
    if c = '[' then bfBalanced rest (d + 1)
    else if c = ']' then
      match d with
      | 0 => false
      | d' + 1 => bfBalanced rest d'
    else bfBalanced rest d

/-- Invariant the translator maintains between the IR built so far and
the stack of pending loop starts: pending placeholders sit at the
stack's indices (top of stack first, strictly decreasing), every other
loop-jump op is mutually paired, no pair straddles a pending start,
and every run-kind op has a positive repeat count. -/
structure Inv (res : List BfOp) (stack : List Nat) : Prop where
  stackLt : ∀ m ∈ stack, m < res.length
  stackSorted : stack.Pairwise (fun a b => b < a)
  stackPlaceholder : ∀ m ∈ stack, res.getD m dfltOp = ⟨.JumpIfDataZero, 0⟩
  jzMatched : ∀ i, i < res.length →
    (res.getD i dfltOp).kind = .JumpIfDataZero → i ∉ stack → ∃ j, pairOK res i j
  jnzMatched : ∀ j, j < res.length →
    (res.getD j dfltOp).kind = .JumpIfDataNotZero → ∃ i, pairOK res i j
  noStraddle : ∀ m ∈ stack, ∀ i j, pairOK res i j → j < m ∨ m < i
  argsPos : ∀ k, k < res.length → isRunKind (res.getD k dfltOp).kind →
    1 ≤ (res.getD k dfltOp).argument

theorem Inv_nil : Inv [] [] := by
  constructor <;> simp [pairOK]

/-- Appending ops cannot break an existing pair. -/
theorem pairOK_append (l l' : List BfOp) (i j : Nat) (h : pairOK l i j) :
    pairOK (l ++ l') i j := by
  obtain ⟨hij, hj, hi2, hj2⟩ := h
  refine ⟨hij, by simp; omega, ?_, ?_⟩
  · rw [List.getD_append l l' dfltOp i (by omega)]; exact hi2
  · rw [List.getD_append l l' dfltOp j hj]; exact hj2

/-- A pair in a list extended with a non-JumpIfDataNotZero op lies in
the original list. -/
theorem pairOK_append_elim (l : List BfOp) (x : BfOp)
    (hx : x.kind ≠ .JumpIfDataNotZero) (i j : Nat)
    (h : pairOK (l ++ [x]) i j) : pairOK l i j := by
  obtain ⟨hij, hj, hi2, hj2⟩ := h
  have hjlen : j < l.length := by
    rcases Nat.lt_or_ge j l.length with hlt | hge
    · exact hlt
    · exfalso
      have hj' : j = l.length := by simp at hj; omega
      subst hj'
      rw [getD_append_sing] at hj2
      exact hx (by rw [hj2])
  refine ⟨hij, hjlen, ?_, ?_⟩
  · rw [List.getD_append l [x] dfltOp i (by omega)] at hi2; exact hi2
  · rw [List.getD_append l [x] dfltOp j hjlen] at hj2; exact hj2

/-- Every op the loop optimizer produces is one of the three
specialized loop kinds. -/
theorem optimize_loop_kinds (ops : List BfOp) (loop_start : Nat) :
    ∀ op ∈ optimize_loop ops loop_start,
      op.kind = .LoopSetToZero ∨ op.kind = .LoopMovePtr ∨
        op.kind = .LoopMoveData := by
  intro op hop
  simp only [optimize_loop] at hop
  split at hop
  · split at hop <;> simp_all
  · split at hop
    · split at hop
      · split at hop
        · simp_all
        · split at hop <;> simp_all
      · simp_all
    · simp_all

/-- The loop optimizer's replacement is at most one op long. -/
theorem optimize_loop_length_le (ops : List BfOp) (loop_start : Nat) :
    (optimize_loop ops loop_start).length ≤ 1 := by
  simp only [optimize_loop]
  split
  · split <;> simp
  · split
    · split
      · split
        · simp
        · split <;> simp
      · simp
    · simp

theorem loopKind_not_run (k : BfOpKind)
    (h : k = .LoopSetToZero ∨ k = .LoopMovePtr ∨ k = .LoopMoveData) :
    ¬ isRunKind k ∧ k ≠ .JumpIfDataZero ∧ k ≠ .JumpIfDataNotZero := by
  rcases h with h | h | h <;> subst h <;>
    exact ⟨by decide, by decide, by decide⟩

/-- Pushing a fresh placeholder preserves the translator invariant. -/
theorem Inv_push (res : List BfOp) (stack : List Nat) (h : Inv res stack) :
    Inv (res ++ [⟨.JumpIfDataZero, 0⟩]) (res.length :: stack) := by
  have hget : ∀ k, k < res.length →
      (res ++ [(⟨.JumpIfDataZero, 0⟩ : BfOp)]).getD k dfltOp = res.getD k dfltOp :=
    fun k hk => List.getD_append res _ dfltOp k hk
  have hnew := getD_append_sing res (⟨.JumpIfDataZero, 0⟩ : BfOp) dfltOp
  have hpe := pairOK_append_elim res (⟨.JumpIfDataZero, 0⟩ : BfOp) (by decide)
  constructor
  · intro m hm
    simp only [List.length_append, List.length_cons, List.length_nil]
    rcases List.mem_cons.mp hm with rfl | hm'
    · omega
    · have := h.stackLt m hm'; omega
  · exact List.Pairwise.cons (fun m hm => h.stackLt m hm) h.stackSorted
  · intro m hm
    rcases List.mem_cons.mp hm with rfl | hm'
    · exact hnew
    · rw [hget m (h.stackLt m hm')]; exact h.stackPlaceholder m hm'
  · intro i hi hkind hnot
    have hne : i ≠ res.length := fun hc => hnot (hc ▸ List.mem_cons_self _ _)
    have hi' : i < res.length := by simp at hi; omega
    have hnot' : i ∉ stack := fun hc => hnot (List.mem_cons_of_mem _ hc)
    rw [hget i hi'] at hkind
    obtain ⟨j, hj⟩ := h.jzMatched i hi' hkind hnot'
    exact ⟨j, pairOK_append res _ i j hj⟩
  · intro j hj hkind
    by_cases hje : j = res.length
    · subst hje; rw [hnew] at hkind; exact absurd hkind (by decide)
    · have hj' : j < res.length := by simp at hj; omega
      rw [hget j hj'] at hkind
      obtain ⟨i, hi⟩ := h.jnzMatched j hj' hkind
      exact ⟨i, pairOK_append res _ i j hi⟩
  · intro m hm i j hp
    have hp' := hpe i j hp
    rcases List.mem_cons.mp hm with rfl | hm'
    · left; exact hp'.2.1
    · exact h.noStraddle m hm' i j hp'
  · intro k hk hrk
    by_cases hke : k = res.length
    · subst hke; rw [hnew] at hrk; exact absurd hrk (by decide)
    · have hk' : k < res.length := by simp at hk; omega
      rw [hget k hk'] at hrk ⊢
      exact h.argsPos k hk' hrk

/-- Appending one folded run op preserves the translator invariant. -/
theorem Inv_append_run (res : List BfOp) (stack : List Nat) (knd : BfOpKind)
    (a : Int) (h : Inv res stack) (h1 : knd ≠ .JumpIfDataZero)
    (h2 : knd ≠ .JumpIfDataNotZero) (h3 : 1 ≤ a) :
    Inv (res ++ [⟨knd, a⟩]) stack := by
  have hget : ∀ k, k < res.length →
      (res ++ [(⟨knd, a⟩ : BfOp)]).getD k dfltOp = res.getD k dfltOp :=
    fun k hk => List.getD_append res _ dfltOp k hk
  have hnew := getD_append_sing res (⟨knd, a⟩ : BfOp) dfltOp
  have hpe := pairOK_append_elim res (⟨knd, a⟩ : BfOp) h2
  constructor
  · intro m hm; have := h.stackLt m hm; simp; omega
  · exact h.stackSorted
  · intro m hm; rw [hget m (h.stackLt m hm)]; exact h.stackPlaceholder m hm
  · intro i hi hkind hnot
    by_cases hie : i = res.length
    · subst hie; rw [hnew] at hkind; exact absurd hkind h1
    · have hi' : i < res.length := by simp at hi; omega
      rw [hget i hi'] at hkind
      obtain ⟨j, hj⟩ := h.jzMatched i hi' hkind hnot
      exact ⟨j, pairOK_append res _ i j hj⟩
  · intro j hj hkind
    by_cases hje : j = res.length
    · subst hje; rw [hnew] at hkind; exact absurd hkind h2
    · have hj' : j < res.length := by simp at hj; omega
      rw [hget j hj'] at hkind
      obtain ⟨i, hi⟩ := h.jnzMatched j hj' hkind
      exact ⟨i, pairOK_append res _ i j hi⟩
  · intro m hm i j hp
    exact h.noStraddle m hm i j (hpe i j hp)
  · intro k hk hrk
    by_cases hke : k = res.length
    · subst hke; rw [hnew]; exact h3
    · have hk' : k < res.length := by simp at hk; omega
      rw [hget k hk'] at hrk ⊢
      exact h.argsPos k hk' hrk

/-- Finalizing a generic loop (patching the placeholder and appending
the JumpIfDataNotZero) preserves the translator invariant, discharging
the closed loop from the stack. -/
theorem Inv_close_generic (res : List BfOp) (stack : List Nat) (m : Nat)
    (h : Inv res (m :: stack)) :
    Inv ((res.set m ⟨(res.getD m dfltOp).kind, (res.length : Int)⟩) ++
      [⟨.JumpIfDataNotZero, (m : Int)⟩]) stack := by
  have hm : m < res.length := h.stackLt m (List.mem_cons_self _ _)
  have hplace : res.getD m dfltOp = ⟨.JumpIfDataZero, 0⟩ :=
    h.stackPlaceholder m (List.mem_cons_self _ _)
  have hsort := List.pairwise_cons.mp h.stackSorted
  set L := res.length with hL
  set x : BfOp := ⟨(res.getD m dfltOp).kind, (L : Int)⟩ with hx
  have hxval : x = ⟨.JumpIfDataZero, (L : Int)⟩ := by rw [hx, hplace]
  have hlenset : (res.set m x).length = L := by simp [hL]
  have hlen : ((res.set m x) ++ [(⟨.JumpIfDataNotZero, (m : Int)⟩ : BfOp)]).length
      = L + 1 := by simp [hL]
  have hgetOld : ∀ k, k < L → k ≠ m →
      ((res.set m x) ++ [(⟨.JumpIfDataNotZero, (m : Int)⟩ : BfOp)]).getD k dfltOp
        = res.getD k dfltOp := by
    intro k hk hkm
    rw [List.getD_append _ _ dfltOp k (by rw [hlenset]; exact hk)]
    exact getD_set_ne x dfltOp res m k (fun hc => hkm hc.symm)
  have hgetM : ((res.set m x) ++ [(⟨.JumpIfDataNotZero, (m : Int)⟩ : BfOp)]).getD
      m dfltOp = ⟨.JumpIfDataZero, (L : Int)⟩ := by
    rw [List.getD_append _ _ dfltOp m (by rw [hlenset]; exact hm)]
    rw [getD_set_eq x dfltOp res m hm]
    exact hxval
  have hgetL : ((res.set m x) ++ [(⟨.JumpIfDataNotZero, (m : Int)⟩ : BfOp)]).getD
      L dfltOp = ⟨.JumpIfDataNotZero, (m : Int)⟩ := by
    have := getD_append_sing (res.set m x) (⟨.JumpIfDataNotZero, (m : Int)⟩ : BfOp)
      dfltOp
    rwa [hlenset] at this
  have hnm : ∀ i j, pairOK res i j → i ≠ m ∧ j ≠ m := by
    intro i j hp
    obtain ⟨hij, hjlt, hi2, hj2⟩ := hp
    constructor
    · intro hc
      subst hc
      have : (⟨.JumpIfDataZero, 0⟩ : BfOp) = ⟨.JumpIfDataZero, (j : Int)⟩ :=
        hplace.symm.trans hi2
      have hj0 : (j : Int) = 0 := by
        have := congrArg BfOp.argument this; simpa using this.symm
      omega
    · intro hc
      subst hc
      have : (⟨.JumpIfDataZero, 0⟩ : BfOp) = ⟨.JumpIfDataNotZero, (i : Int)⟩ :=
        hplace.symm.trans hj2
      have := congrArg BfOp.kind this
      simp at this
  have hnewpair : pairOK ((res.set m x) ++
      [(⟨.JumpIfDataNotZero, (m : Int)⟩ : BfOp)]) m L := by
    refine ⟨hm, by omega, hgetM, hgetL⟩
  have hlift : ∀ i j, pairOK res i j →
      pairOK ((res.set m x) ++ [(⟨.JumpIfDataNotZero, (m : Int)⟩ : BfOp)]) i j := by
    intro i j hp
    obtain ⟨hne_i, hne_j⟩ := hnm i j hp
    obtain ⟨hij, hjlt, hi2, hj2⟩ := hp
    refine ⟨hij, by omega, ?_, ?_⟩
    · rw [hgetOld i (by omega) hne_i]; exact hi2
    · rw [hgetOld j hjlt hne_j]; exact hj2
  have helim : ∀ i j,
      pairOK ((res.set m x) ++ [(⟨.JumpIfDataNotZero, (m : Int)⟩ : BfOp)]) i j →
      (i = m ∧ j = L) ∨ pairOK res i j := by
    intro i j hp
    obtain ⟨hij, hjlt, hi2, hj2⟩ := hp
    rw [hlen] at hjlt
    by_cases hjL : j = L
    · subst hjL
      rw [hgetL] at hj2
      have : (m : Int) = (i : Int) := by
        have := congrArg BfOp.argument hj2; simpa using this
      have him : i = m := by omega
      exact Or.inl ⟨him, rfl⟩
    · have hjlt' : j < L := by omega
      have hne_j : j ≠ m := by
        intro hc
        subst hc
        rw [hgetM] at hj2
        have := congrArg BfOp.kind hj2
        simp at this
      have hne_i : i ≠ m := by
        intro hc
        subst hc
        rw [hgetM] at hi2
        have : (L : Int) = (j : Int) := by
          have := congrArg BfOp.argument hi2; simpa using this
        omega
      right
      refine ⟨hij, hjlt', ?_, ?_⟩
      · rw [hgetOld i (by omega) hne_i] at hi2; exact hi2
      · rw [hgetOld j hjlt' hne_j] at hj2; exact hj2
  constructor
  · intro m' hm'
    have := h.stackLt m' (List.mem_cons_of_mem _ hm')
    omega
  · exact hsort.2
  · intro m' hm'
    have hlt := hsort.1 m' hm'
    rw [hgetOld m' (by have := h.stackLt m' (List.mem_cons_of_mem _ hm'); omega)
      (by omega)]
    exact h.stackPlaceholder m' (List.mem_cons_of_mem _ hm')
  · intro i hi hkind hnot
    rw [hlen] at hi
    by_cases hiL : i = L
    · subst hiL
      rw [hgetL] at hkind
      simp at hkind
    · by_cases him : i = m
      · subst him
        exact ⟨L, hnewpair⟩
      · have hi' : i < L := by omega
        rw [hgetOld i hi' him] at hkind
        have hnot' : i ∉ m :: stack := by
          intro hc
          rcases List.mem_cons.mp hc with hc' | hc'
          · exact him hc'
          · exact hnot hc'
        obtain ⟨j, hj⟩ := h.jzMatched i hi' hkind hnot'
        exact ⟨j, hlift i j hj⟩
  · intro j hj hkind
    rw [hlen] at hj
    by_cases hjL : j = L
    · subst hjL
      exact ⟨m, hnewpair⟩
    · by_cases hjm : j = m
      · subst hjm
        rw [hgetM] at hkind
        simp at hkind
      · have hj' : j < L := by omega
        rw [hgetOld j hj' hjm] at hkind
        obtain ⟨i, hi⟩ := h.jnzMatched j hj' hkind
        exact ⟨i, hlift i j hi⟩
  · intro m' hm' i j hp
    rcases helim i j hp with ⟨him, hjL⟩ | hp'
    · subst him; subst hjL
      right
      exact hsort.1 m' hm'
    · exact h.noStraddle m' (List.mem_cons_of_mem _ hm') i j hp'
  · intro k hk hrk
    rw [hlen] at hk
    by_cases hkL : k = L
    · subst hkL
      rw [hgetL] at hrk
      simp [isRunKind] at hrk
    · by_cases hkm : k = m
      · subst hkm
        rw [hgetM] at hrk
        simp [isRunKind] at hrk
      · have hk' : k < L := by omega
        rw [hgetOld k hk' hkm] at hrk ⊢
        exact h.argsPos k hk' hrk

/-- Splicing an optimizer replacement over the closed loop span
preserves the translator invariant, discharging the closed loop from
the stack. -/
theorem Inv_close_splice (res : List BfOp) (stack : List Nat) (m : Nat)
    (h : Inv res (m :: stack)) :
    Inv (res.take m ++ optimize_loop res m) stack := by
  have hm : m < res.length := h.stackLt m (List.mem_cons_self _ _)
  have hsort := List.pairwise_cons.mp h.stackSorted
  have hops := optimize_loop_kinds res m
  have htlen : (res.take m).length = m := by simp; omega
  have hlen : (res.take m ++ optimize_loop res m).length =
      m + (optimize_loop res m).length := by simp [htlen]
  have hgetPre : ∀ k, k < m →
      (res.take m ++ optimize_loop res m).getD k dfltOp = res.getD k dfltOp := by
    intro k hk
    rw [List.getD_append _ _ dfltOp k (by rw [htlen]; exact hk)]
    exact getD_take dfltOp res m k hk
  have hgetSuf : ∀ k, m ≤ k → k < m + (optimize_loop res m).length →
      ((res.take m ++ optimize_loop res m).getD k dfltOp).kind = .LoopSetToZero ∨
      ((res.take m ++ optimize_loop res m).getD k dfltOp).kind = .LoopMovePtr ∨
      ((res.take m ++ optimize_loop res m).getD k dfltOp).kind =
        .LoopMoveData := by
    intro k hk1 hk2
    rw [List.getD_append_right _ _ dfltOp k (by rw [htlen]; exact hk1), htlen]
    have hkm : k - m < (optimize_loop res m).length := by omega
    rw [List.getD_eq_getElem _ _ hkm]
    exact hops _ (List.getElem_mem hkm)
  have helim : ∀ i j, pairOK (res.take m ++ optimize_loop res m) i j →
      pairOK res i j ∧ j < m := by
    intro i j hp
    obtain ⟨hij, hjlt, hi2, hj2⟩ := hp
    rw [hlen] at hjlt
    have hjm : j < m := by
      by_contra hge
      have := hgetSuf j (by omega) hjlt
      rw [hj2] at this
      rcases this with hc | hc | hc <;> simp at hc
    have him : i < m := by omega
    rw [hgetPre i him] at hi2
    rw [hgetPre j hjm] at hj2
    exact ⟨⟨hij, by omega, hi2, hj2⟩, hjm⟩
  have hlift : ∀ i j, pairOK res i j → j < m →
      pairOK (res.take m ++ optimize_loop res m) i j := by
    intro i j hp hjm
    obtain ⟨hij, hjlt, hi2, hj2⟩ := hp
    refine ⟨hij, by rw [hlen]; omega, ?_, ?_⟩
    · rw [hgetPre i (by omega)]; exact hi2
    · rw [hgetPre j hjm]; exact hj2
  constructor
  · intro m' hm'
    have := hsort.1 m' hm'
    rw [hlen]; omega
  · exact hsort.2
  · intro m' hm'
    rw [hgetPre m' (hsort.1 m' hm')]
    exact h.stackPlaceholder m' (List.mem_cons_of_mem _ hm')
  · intro i hi hkind hnot
    rw [hlen] at hi
    by_cases him : i < m
    · rw [hgetPre i him] at hkind
      have hnot' : i ∉ m :: stack := by
        intro hc
        rcases List.mem_cons.mp hc with hc' | hc'
        · omega
        · exact hnot hc'
      obtain ⟨j, hj⟩ := h.jzMatched i (by omega) hkind hnot'
      have hjm : j < m := by
        rcases h.noStraddle m (List.mem_cons_self _ _) i j hj with hc | hc
        · exact hc
        · omega
      exact ⟨j, hlift i j hj hjm⟩
    · exfalso
      have := hgetSuf i (by omega) hi
      rw [hkind] at this
      rcases this with hc | hc | hc <;> simp at hc
  · intro j hj hkind
    rw [hlen] at hj
    by_cases hjm : j < m
    · rw [hgetPre j hjm] at hkind
      obtain ⟨i, hi⟩ := h.jnzMatched j (by omega) hkind
      have hjm' : j < m := hjm
      exact ⟨i, hlift i j hi hjm'⟩
    · exfalso
      have := hgetSuf j (by omega) hj
      rw [hkind] at this
      rcases this with hc | hc | hc <;> simp at hc
  · intro m' hm' i j hp
    obtain ⟨hp', _⟩ := helim i j hp
    exact h.noStraddle m' (List.mem_cons_of_mem _ hm') i j hp'
  · intro k hk hrk
    rw [hlen] at hk
    by_cases hkm : k < m
    · rw [hgetPre k hkm] at hrk ⊢
      exact h.argsPos k (by omega) hrk
    · exfalso
      have := hgetSuf k (by omega) hk
      exact (loopKind_not_run _ this).1 hrk

theorem translateGo_nil (fuel pc : Nat) (res : List BfOp) (stack : List Nat) :
    translateGo fuel [] pc res stack = Except.ok res := by
  cases fuel <;> rfl

theorem translateGo_zero (c : Char) (rest : List Char) (pc : Nat)
    (res : List BfOp) (stack : List Nat) :
    translateGo 0 (c :: rest) pc res stack = Except.error "out of fuel" := rfl

theorem translateGo_open (fuel pc : Nat) (rest : List Char) (res : List BfOp)
    (stack : List Nat) :
    translateGo (fuel + 1) ('[' :: rest) pc res stack =
      translateGo fuel rest (pc + 1) (res ++ [⟨.JumpIfDataZero, 0⟩])
        (res.length :: stack) := by
  simp only [translateGo]
  simp

theorem translateGo_close_empty (fuel pc : Nat) (rest : List Char)
    (res : List BfOp) :
    translateGo (fuel + 1) (']' :: rest) pc res [] =
      Except.error ("unmatched closing ']' at pc=" ++ toString pc) := by
  simp only [translateGo]
  simp

theorem translateGo_close_generic (fuel pc : Nat) (rest : List Char)
    (res : List BfOp) (m : Nat) (stack : List Nat)
    (hopt : (optimize_loop res m).length = 0) :
    translateGo (fuel + 1) (']' :: rest) pc res (m :: stack) =
      translateGo fuel rest (pc + 1)
        ((res.set m ⟨(res.getD m dfltOp).kind, i32cast res.length⟩) ++
          [⟨.JumpIfDataNotZero, i32cast m⟩]) stack := by
  simp only [translateGo]
  simp [hopt]

theorem translateGo_close_splice (fuel pc : Nat) (rest : List Char)
    (res : List BfOp) (m : Nat) (stack : List Nat)
    (hopt : ¬ (optimize_loop res m).length = 0) :
    translateGo (fuel + 1) (']' :: rest) pc res (m :: stack) =
      translateGo fuel rest (pc + 1) (res.take m ++ optimize_loop res m)
        stack := by
  simp only [translateGo]
  simp [hopt]

theorem translateGo_run (fuel pc : Nat) (c : Char) (rest : List Char)
    (res : List BfOp) (stack : List Nat) (knd : BfOpKind)
    (hc1 : ¬ c = '[') (hc2 : ¬ c = ']') (hk : tokenKind c = some knd) :
    translateGo (fuel + 1) (c :: rest) pc res stack =
      translateGo fuel (rest.dropWhile (fun x => x == c))
        (pc + (1 + (rest.takeWhile (fun x => x == c)).length))
        (res ++ [⟨knd, i32cast (1 + (rest.takeWhile (fun x => x == c)).length)⟩])
        stack := by
  simp only [translateGo]
  rw [if_neg hc1, if_neg hc2, hk]

theorem translateGo_run_none (fuel pc : Nat) (c : Char) (rest : List Char)
    (res : List BfOp) (stack : List Nat)
    (hc1 : ¬ c = '[') (hc2 : ¬ c = ']') (hk : tokenKind c = none) :
    translateGo (fuel + 1) (c :: rest) pc res stack =
      Except.error "Invalid token" := by
  simp only [translateGo]
  rw [if_neg hc1, if_neg hc2, hk]

theorem bfBalanced_nonbracket (c : Char) (hc1 : ¬ c = '[') (hc2 : ¬ c = ']')
    (rest : List Char) (d : Nat) :
    bfBalanced (c :: rest) d = bfBalanced rest d := by
  simp only [bfBalanced]
  rw [if_neg hc1, if_neg hc2]

theorem bfBalanced_dropWhile (c : Char) (hc1 : ¬ c = '[') (hc2 : ¬ c = ']') :
    ∀ (l : List Char) (d : Nat),
      bfBalanced (l.dropWhile (fun x => x == c)) d = bfBalanced l d := by
  intro l
  induction l with
  | nil => intro d; rfl
  | cons x tl ih =>
    intro d
    by_cases hxc : x = c
    · subst hxc
      rw [List.dropWhile_cons_of_pos (by simp), ih d,
        bfBalanced_nonbracket x hc1 hc2]
    · rw [List.dropWhile_cons_of_neg (by simp [hxc])]

theorem token_nonbracket_kind (c : Char) (hc : c ∈ TOKENS) (hc1 : ¬ c = '[')
    (hc2 : ¬ c = ']') : ∃ k, tokenKind c = some k := by
  simp only [TOKENS, List.mem_cons, List.not_mem_nil, or_false] at hc
  rcases hc with rfl | rfl | rfl | rfl | rfl | rfl | rfl | rfl
  all_goals first
    | exact ⟨_, rfl⟩
    | exact absurd rfl hc1
    | exact absurd rfl hc2

theorem tokenKind_some_run (c : Char) (k : BfOpKind)
    (h : tokenKind c = some k) :
    isRunKind k ∧ k ≠ .JumpIfDataZero ∧ k ≠ .JumpIfDataNotZero := by
  unfold tokenKind at h
  split_ifs at h <;> simp at h <;> subst h <;>
    exact ⟨by decide, by decide, by decide⟩

/-- Any successful translation run starting from an invariant state
ends in an invariant state (for some final stack).  The bound keeps
the IR and the remaining input jointly below 2^31 ops, so the i32
casts of run lengths and jump-target indices do not wrap. -/
theorem translateGo_ok_inv :
    ∀ (fuel : Nat) (l : List Char) (pc : Nat) (res : List BfOp)
      (stack : List Nat) (res' : List BfOp),
      res.length + l.length < 2 ^ 31 →
      Inv res stack → translateGo fuel l pc res stack = Except.ok res' →
      ∃ stack', Inv res' stack' := by
  intro fuel
  induction fuel with
  | zero =>
    intro l pc res stack res' hbound hinv hok
    cases l with
    | nil =>
      rw [translateGo_nil] at hok
      obtain rfl : res = res' := by simpa using hok
      exact ⟨stack, hinv⟩
    | cons c rest =>
      rw [translateGo_zero] at hok
      simp at hok
  | succ f ih =>
    intro l pc res stack res' hbound hinv hok
    cases l with
    | nil =>
      rw [translateGo_nil] at hok
      obtain rfl : res = res' := by simpa using hok
      exact ⟨stack, hinv⟩
    | cons c rest =>
      have hbound' : res.length + (rest.length + 1) < 2 ^ 31 := by
        simpa using hbound
      by_cases hc1 : c = '['
      · subst hc1
        rw [translateGo_open] at hok
        exact ih rest _ _ _ res' (by simp; omega) (Inv_push res stack hinv) hok
      · by_cases hc2 : c = ']'
        · subst hc2
          cases stack with
          | nil =>
            rw [translateGo_close_empty] at hok
            simp at hok
          | cons m stack' =>
            have hm : m < res.length := hinv.stackLt m (List.mem_cons_self _ _)
            by_cases hopt : (optimize_loop res m).length = 0
            · rw [translateGo_close_generic f pc rest res m stack' hopt,
                i32cast_small res.length (by omega),
                i32cast_small m (by omega)] at hok
              exact ih rest _ _ _ res' (by simp [List.length_set]; omega)
                (Inv_close_generic res stack' m hinv) hok
            · rw [translateGo_close_splice f pc rest res m stack' hopt] at hok
              have hol := optimize_loop_length_le res m
              exact ih rest _ _ _ res' (by simp; omega)
                (Inv_close_splice res stack' m hinv) hok
        · cases hk : tokenKind c with
          | none =>
            rw [translateGo_run_none f pc c rest res stack hc1 hc2 hk] at hok
            simp at hok
          | some knd =>
            have htw : (rest.takeWhile (fun x => x == c)).length ≤
                rest.length :=
              (List.takeWhile_sublist (fun x => x == c) (l := rest)).length_le
            have hdw : (rest.dropWhile (fun x => x == c)).length ≤
                rest.length :=
              (List.dropWhile_sublist (fun x => x == c) (l := rest)).length_le
            rw [translateGo_run f pc c rest res stack knd hc1 hc2 hk,
              i32cast_small (1 + (rest.takeWhile (fun x => x == c)).length)
                (by omega)] at hok
            obtain ⟨_, hk1, hk2⟩ := tokenKind_some_run c knd hk
            exact ih _ _ _ _ res' (by simp; omega)
              (Inv_append_run res stack knd _ hinv hk1 hk2 (by omega)) hok

/-- On an all-token, bracket-balanced input with enough fuel, the
translator succeeds and ends in an invariant state with an empty
stack.  The bound keeps the IR and the remaining input jointly below
2^31 ops, so the i32 casts of run lengths and jump-target indices do
not wrap. -/
theorem translateGo_balanced_ok :
    ∀ (fuel : Nat) (l : List Char) (pc : Nat) (res : List BfOp)
      (stack : List Nat),
      l.length ≤ fuel → (∀ c ∈ l, c ∈ TOKENS) →
      res.length + l.length < 2 ^ 31 →
      bfBalanced l stack.length = true → Inv res stack →
      ∃ res', translateGo fuel l pc res stack = Except.ok res' ∧
        Inv res' [] := by
  intro fuel
  induction fuel with
  | zero =>
    intro l pc res stack hfuel htok hbound hbal hinv
    have hl : l = [] := List.length_eq_zero.mp (by omega)
    subst hl
    obtain rfl : stack = [] := by
      apply List.length_eq_zero.mp
      simpa [bfBalanced] using hbal
    exact ⟨res, translateGo_nil 0 pc res [], hinv⟩
  | succ f ih =>
    intro l pc res stack hfuel htok hbound hbal hinv
    cases l with
    | nil =>
      obtain rfl : stack = [] := by
        apply List.length_eq_zero.mp
        simpa [bfBalanced] using hbal
      exact ⟨res, translateGo_nil (f + 1) pc res [], hinv⟩
    | cons c rest =>
      have hfuel' : rest.length ≤ f := by simp at hfuel; omega
      have htok' : ∀ x ∈ rest, x ∈ TOKENS :=
        fun x hx => htok x (List.mem_cons_of_mem _ hx)
      have hbound' : res.length + (rest.length + 1) < 2 ^ 31 := by
        simpa using hbound
      by_cases hc1 : c = '['
      · subst hc1
        rw [translateGo_open]
        refine ih rest (pc + 1) _ _ hfuel' htok' (by simp; omega) ?_
          (Inv_push res stack hinv)
        simpa [bfBalanced] using hbal
      · by_cases hc2 : c = ']'
        · subst hc2
          cases stack with
          | nil =>
            exfalso
            simp [bfBalanced] at hbal
          | cons m stack' =>
            have hm : m < res.length := hinv.stackLt m (List.mem_cons_self _ _)
            have hbal' : bfBalanced rest stack'.length = true := by
              simpa [bfBalanced] using hbal
            by_cases hopt : (optimize_loop res m).length = 0
            · rw [translateGo_close_generic f pc rest res m stack' hopt,
                i32cast_small res.length (by omega),
                i32cast_small m (by omega)]
              exact ih rest (pc + 1) _ _ hfuel' htok'
                (by simp [List.length_set]; omega) hbal'
                (Inv_close_generic res stack' m hinv)
            · rw [translateGo_close_splice f pc rest res m stack' hopt]
              have hol := optimize_loop_length_le res m
              exact ih rest (pc + 1) _ _ hfuel' htok' (by simp; omega) hbal'
                (Inv_close_splice res stack' m hinv)
        · obtain ⟨knd, hk⟩ :=
            token_nonbracket_kind c (htok c (List.mem_cons_self _ _)) hc1 hc2
          have htw : (rest.takeWhile (fun x => x == c)).length ≤
              rest.length :=
            (List.takeWhile_sublist (fun x => x == c) (l := rest)).length_le
          have hdw : (rest.dropWhile (fun x => x == c)).length ≤
              rest.length :=
            (List.dropWhile_sublist (fun x => x == c) (l := rest)).length_le
          rw [translateGo_run f pc c rest res stack knd hc1 hc2 hk,
            i32cast_small (1 + (rest.takeWhile (fun x => x == c)).length)
              (by omega)]
          obtain ⟨_, hk1, hk2⟩ := tokenKind_some_run c knd hk
          refine ih _ _ _ _ ?_ ?_ (by simp; omega) ?_
            (Inv_append_run res stack knd _ hinv hk1 hk2 (by omega))
          · omega
          · exact fun x hx => htok' x
              ((List.dropWhile_sublist (fun y => y == c)).subset hx)
          · rw [bfBalanced_dropWhile c hc1 hc2 rest stack.length]
            rw [← bfBalanced_nonbracket c hc1 hc2 rest stack.length]
            exact hbal

/-- C7 (amended): for every balanced token sequence shorter than 2^31
characters (so the IR stays within the i32 index range and the
translator's `as i32` casts of jump-target indices do not wrap), after
successful translation every JumpIfDataZero op in the IR has exactly
one matching JumpIfDataNotZero op and vice versa, matched ops holding
each other's indices as arguments; no unmatched bracket op remains. -/
theorem translate_brackets_matched (insts : List Char) (res : List BfOp)
    (htok : ∀ c ∈ insts, c ∈ TOKENS) (hlen : insts.length < 2 ^ 31)
    (hbal : bfBalanced insts 0 = true)
    (hok : translate insts = Except.ok res) :
    ∀ i, i < res.length →
      ((res.getD i dfltOp).kind = .JumpIfDataZero → ∃! j, pairOK res i j) ∧
      ((res.getD i dfltOp).kind = .JumpIfDataNotZero →
        ∃! j, pairOK res j i) := by
  obtain ⟨res', hok', hinv⟩ := translateGo_balanced_ok insts.length insts 0 [] []
    (le_refl _) htok (by simpa using hlen) (by simpa using hbal) Inv_nil
  unfold translate at hok
  rw [hok] at hok'
  obtain rfl : res = res' := by simpa using hok'
  intro i hi
  constructor
  · intro hkind
    obtain ⟨j, hj⟩ := hinv.jzMatched i hi hkind (by simp)
    refine ⟨j, hj, ?_⟩
    intro j' hj'
    have h1 := hj.2.2.1
    have h2 := hj'.2.2.1
    rw [h1] at h2
    have : j = j' := by
      have := congrArg BfOp.argument h2
      simpa using this
    omega
  · intro hkind
    obtain ⟨j, hj⟩ := hinv.jnzMatched i hi hkind
    refine ⟨j, hj, ?_⟩
    intro j' hj'
    have h1 := hj.2.2.2
    have h2 := hj'.2.2.2
    rw [h1] at h2
    have : j = j' := by
      have := congrArg BfOp.argument h2
      simpa using this
    omega

/-- Witness for C7 on the input "[.]", whose IR keeps one generic
bracket pair: the JumpIfDataZero at index 0 and the JumpIfDataNotZero
at index 2 each have exactly one matching partner. -/
theorem translate_brackets_matched_witness :
    (∃! j, pairOK [⟨.JumpIfDataZero, 2⟩, ⟨.WriteStdout, 1⟩,
      ⟨.JumpIfDataNotZero, 0⟩] 0 j) ∧
    (∃! j, pairOK [⟨.JumpIfDataZero, 2⟩, ⟨.WriteStdout, 1⟩,
      ⟨.JumpIfDataNotZero, 0⟩] j 2) :=
  ⟨(translate_brackets_matched ['[', '.', ']']
      [⟨.JumpIfDataZero, 2⟩, ⟨.WriteStdout, 1⟩, ⟨.JumpIfDataNotZero, 0⟩]
      (by decide) (by norm_num) (by decide) rfl 0 (by decide)).1 rfl,
    (translate_brackets_matched ['[', '.', ']']
      [⟨.JumpIfDataZero, 2⟩, ⟨.WriteStdout, 1⟩, ⟨.JumpIfDataNotZero, 0⟩]
      (by decide) (by norm_num) (by decide) rfl 2 (by decide)).2 rfl⟩

theorem takeWhile_replicate (c : Char) (rest : List Char)
    (h : rest.head? ≠ some c) : ∀ n : Nat,
    (List.replicate n c ++ rest).takeWhile (fun x => x == c) =
      List.replicate n c := by
  intro n
  induction n with
  | zero =>
    cases rest with
    | nil => rfl
    | cons x tl =>
      have hx : ¬ x = c := fun hc => h (by simp [hc])
      show (x :: tl).takeWhile (fun y => y == c) = []
      rw [List.takeWhile_cons_of_neg (by simp [hx])]
  | succ n ihn =>
    show (c :: (List.replicate n c ++ rest)).takeWhile (fun y => y == c) =
      c :: List.replicate n c
    rw [List.takeWhile_cons_of_pos (by simp), ihn]

theorem dropWhile_replicate (c : Char) (rest : List Char)
    (h : rest.head? ≠ some c) : ∀ n : Nat,
    (List.replicate n c ++ rest).dropWhile (fun x => x == c) = rest := by
  intro n
  induction n with
  | zero =>
    cases rest with
    | nil => rfl
    | cons x tl =>
      have hx : ¬ x = c := fun hc => h (by simp [hc])
      show (x :: tl).dropWhile (fun y => y == c) = x :: tl
      rw [List.dropWhile_cons_of_neg (by simp [hx])]
  | succ n ihn =>
    show (c :: (List.replicate n c ++ rest)).dropWhile (fun y => y == c) = rest
    rw [List.dropWhile_cons_of_pos (by simp), ihn]

/-- One translator step consumes a maximal run of k identical
non-bracket tokens, appending exactly one op of the corresponding kind
whose argument is k truncated to i32, and advancing pc by k. -/
theorem translateGo_run_replicate (fuel pc : Nat) (c : Char)
    (knd : BfOpKind) (k : Nat) (rest : List Char) (res : List BfOp)
    (stack : List Nat) (hk : tokenKind c = some knd) (hk1 : 1 ≤ k)
    (hhead : rest.head? ≠ some c) :
    translateGo (fuel + 1) (List.replicate k c ++ rest) pc res stack =
      translateGo fuel rest (pc + k)
        (res ++ [⟨knd, i32cast k⟩]) stack := by
  cases k with
  | zero => omega
  | succ k' =>
    have hc1 : ¬ c = '[' := by
      intro hc; subst hc; simp [tokenKind] at hk
    have hc2 : ¬ c = ']' := by
      intro hc; subst hc; simp [tokenKind] at hk
    have hsplit : List.replicate (k' + 1) c ++ rest =
        c :: (List.replicate k' c ++ rest) := by
      simp [List.replicate_succ]
    rw [hsplit,
      translateGo_run fuel pc c (List.replicate k' c ++ rest) res stack knd
        hc1 hc2 hk,
      takeWhile_replicate c rest hhead k',
      dropWhile_replicate c rest hhead k',
      List.length_replicate]
    rw [show 1 + k' = k' + 1 from by omega]

/-- C8 (amended): a maximal run of k identical non-bracket tokens is
folded into exactly one op of the corresponding kind whose argument is
k truncated to i32 (`num_repeats as i32` in the original), which
equals k whenever k < 2^31; the program counter advances by k; and for
every token sequence shorter than 2^31 characters, every run-kind
argument in a successfully translated IR is at least 1. -/
theorem translate_run_folding :
    (∀ (fuel pc : Nat) (c : Char) (knd : BfOpKind) (k : Nat)
        (rest : List Char) (res : List BfOp) (stack : List Nat),
      tokenKind c = some knd → 1 ≤ k → rest.head? ≠ some c →
      translateGo (fuel + 1) (List.replicate k c ++ rest) pc res stack =
        translateGo fuel rest (pc + k)
          (res ++ [⟨knd, i32cast k⟩]) stack) ∧
    (∀ k : Nat, k < 2 ^ 31 → i32cast k = (k : Int)) ∧
    (∀ (insts : List Char) (res : List BfOp), insts.length < 2 ^ 31 →
      translate insts = Except.ok res →
      ∀ op ∈ res, isRunKind op.kind → 1 ≤ op.argument) := by
  refine ⟨translateGo_run_replicate, i32cast_small, ?_⟩
  intro insts res hlen hok op hop hrun
  unfold translate at hok
  obtain ⟨stack', hinv⟩ :=
    translateGo_ok_inv insts.length insts 0 [] [] res (by simpa using hlen)
      Inv_nil hok
  obtain ⟨⟨idx, hidx⟩, hval⟩ := List.mem_iff_get.mp hop
  have harg := hinv.argsPos idx hidx
  rw [List.getD_eq_getElem res dfltOp hidx] at harg
  simp only [List.get_eq_getElem] at hval
  rw [hval] at harg
  exact harg hrun

/-- Witness for C8: a run of three plus tokens folds to one IncData op
with argument i32cast 3 = 3, and the IR of "+" has all run arguments
at least 1. -/
theorem translate_run_folding_witness :
    (translateGo (0 + 1) (List.replicate 3 '+' ++ []) 0 [] [] =
      translateGo 0 [] (0 + 3) ([] ++ [⟨.IncData, i32cast 3⟩]) []) ∧
    i32cast 3 = (3 : Int) ∧
    (∀ op ∈ ([⟨.IncData, 1⟩] : List BfOp), isRunKind op.kind →
      1 ≤ op.argument) :=
  ⟨translate_run_folding.1 0 0 '+' .IncData 3 [] [] [] rfl (by decide)
      (by decide),
    translate_run_folding.2.1 3 (by norm_num),
    translate_run_folding.2.2 ['+'] [⟨.IncData, 1⟩] (by norm_num) rfl⟩

/-- C8 counterexample: for a run of 2^31 plus tokens the translator's
`num_repeats as i32` cast wraps, so the folded op's argument is not
the run length: the original unbounded claim fails at k = 2^31. -/
theorem translate_run_folding_counterexample :
    ¬ (translateGo (0 + 1) (List.replicate (2 ^ 31) '+' ++ []) 0 [] [] =
      translateGo 0 [] (0 + 2 ^ 31)
        ([] ++ [⟨.IncData, ((2 ^ 31 : Nat) : Int)⟩]) []) := by
  rw [translateGo_run_replicate 0 0 '+' .IncData (2 ^ 31) [] [] [] rfl
    (by norm_num) (by decide), translateGo_nil, translateGo_nil]
  intro h
  simp only [Except.ok.injEq, List.nil_append, List.cons.injEq,
    BfOp.mk.injEq, and_true, true_and] at h
  have hval : i32cast (2 ^ 31) = (2 ^ 31 : Int) - 2 ^ 32 := by
    unfold i32cast
    rw [Nat.mod_eq_of_lt (by norm_num), if_neg (by norm_num)]
    norm_num
  rw [hval] at h
  norm_num at h

/-- Scan of the token stream for the first loop-close reached while no
loop is open, returning its character position; d counts the loops
currently open and pos the characters already consumed. -/
def firstUnmatchedClose : List Char → Nat → Nat → Option Nat
  | [], _, _ => none
  | c :: rest, d, pos =>
    if c = '[' then firstUnmatchedClose rest (d + 1) (pos + 1)
    else if c = ']' then
      match d with
      | 0 => some pos
      | d' + 1 => firstUnmatchedClose rest d' (pos + 1)
    else firstUnmatchedClose rest d (pos + 1)

theorem fc_nonbracket (c : Char) (hc1 : ¬ c = '[') (hc2 : ¬ c = ']')
    (rest : List Char) (d pos : Nat) :
    firstUnmatchedClose (c :: rest) d pos =
      firstUnmatchedClose rest d (pos + 1) := by
  simp only [firstUnmatchedClose]
  rw [if_neg hc1, if_neg hc2]

theorem fc_dropWhile (c : Char) (hc1 : ¬ c = '[') (hc2 : ¬ c = ']') :
    ∀ (l : List Char) (d pos : Nat),
      firstUnmatchedClose (l.dropWhile (fun x => x == c)) d
        (pos + (l.takeWhile (fun x => x == c)).length) =
      firstUnmatchedClose l d pos := by
  intro l
  induction l with
  | nil => intro d pos; simp
  | cons x tl ih =>
    intro d pos
    by_cases hxc : x = c
    · subst hxc
      rw [List.dropWhile_cons_of_pos (by simp),
        List.takeWhile_cons_of_pos (by simp),
        fc_nonbracket x hc1 hc2 tl d pos]
      simp only [List.length_cons]
      rw [show pos + ((tl.takeWhile (fun y => y == x)).length + 1) =
        (pos + 1) + (tl.takeWhile (fun y => y == x)).length from by omega]
      exact ih d (pos + 1)
    · rw [List.dropWhile_cons_of_neg (by simp [hxc]),
        List.takeWhile_cons_of_neg (by simp [hxc])]
      simp

/-- A loop-close reached with an empty loop-start stack aborts the
whole run with the unmatched-close error naming its position. -/
theorem translateGo_unmatched :
    ∀ (fuel : Nat) (l : List Char) (pc : Nat) (res : List BfOp)
      (stack : List Nat) (p : Nat),
      l.length ≤ fuel → (∀ c ∈ l, c ∈ TOKENS) →
      firstUnmatchedClose l stack.length pc = some p →
      translateGo fuel l pc res stack =
        Except.error ("unmatched closing ']' at pc=" ++ toString p) := by
  intro fuel
  induction fuel with
  | zero =>
    intro l pc res stack p hfuel htok hfc
    have hl : l = [] := List.length_eq_zero.mp (by omega)
    subst hl
    simp [firstUnmatchedClose] at hfc
  | succ f ih =>
    intro l pc res stack p hfuel htok hfc
    cases l with
    | nil => simp [firstUnmatchedClose] at hfc
    | cons c rest =>
      have hfuel' : rest.length ≤ f := by simp at hfuel; omega
      have htok' : ∀ x ∈ rest, x ∈ TOKENS :=
        fun x hx => htok x (List.mem_cons_of_mem _ hx)
      by_cases hc1 : c = '['
      · subst hc1
        rw [translateGo_open]
        apply ih rest (pc + 1) _ _ p hfuel' htok'
        simpa [firstUnmatchedClose] using hfc
      · by_cases hc2 : c = ']'
        · subst hc2
          cases stack with
          | nil =>
            rw [translateGo_close_empty]
            have hp : pc = p := by
              simpa [firstUnmatchedClose] using hfc
            rw [hp]
          | cons m stack' =>
            have hfc' : firstUnmatchedClose rest stack'.length (pc + 1) =
                some p := by
              simpa [firstUnmatchedClose] using hfc
            by_cases hopt : (optimize_loop res m).length = 0
            · rw [translateGo_close_generic f pc rest res m stack' hopt]
              exact ih rest (pc + 1) _ _ p hfuel' htok' hfc'
            · rw [translateGo_close_splice f pc rest res m stack' hopt]
              exact ih rest (pc + 1) _ _ p hfuel' htok' hfc'
        · obtain ⟨knd, hk⟩ :=
            token_nonbracket_kind c (htok c (List.mem_cons_self _ _)) hc1 hc2
          rw [translateGo_run f pc c rest res stack knd hc1 hc2 hk]
          apply ih _ _ _ _ p ?_ ?_ ?_
          · have := (List.dropWhile_sublist (fun x : Char => x == c)
              (l := rest)).length_le
            omega
          · exact fun x hx => htok' x
              ((List.dropWhile_sublist (fun y => y == c)).subset hx)
          · rw [show pc + (1 + (rest.takeWhile (fun x => x == c)).length) =
              (pc + 1) + (rest.takeWhile (fun x => x == c)).length from by omega]
            rw [fc_dropWhile c hc1 hc2 rest stack.length (pc + 1)]
            rw [← fc_nonbracket c hc1 hc2 rest stack.length pc]
            exact hfc

/-- C9: a token sequence whose scan reaches a loop-close with no open
loop makes translation fail with the unmatched-close error reporting
the offending position (the original panics there, aborting the
process with a non-zero status). -/
theorem translate_unmatched_close_error (insts : List Char) (p : Nat)
    (htok : ∀ c ∈ insts, c ∈ TOKENS)
    (hfc : firstUnmatchedClose insts 0 0 = some p) :
    translate insts =
      Except.error ("unmatched closing ']' at pc=" ++ toString p) :=
  translateGo_unmatched insts.length insts 0 [] [] p (le_refl _) htok
    (by simpa using hfc)

/-- Witness for C9 on the input "]". -/
theorem translate_unmatched_close_error_witness :
    translate [']'] =
      Except.error ("unmatched closing ']' at pc=" ++ toString 0) :=
  translate_unmatched_close_error [']'] 0 (by decide) rfl

theorem takeWhile_head_ne (c : Char) (l : List Char)
    (h : l.head? ≠ some c) : l.takeWhile (fun x => x == c) = [] := by
  cases l with
  | nil => rfl
  | cons x tl =>
    have hx : ¬ x = c := fun hc => h (by simp [hc])
    rw [List.takeWhile_cons_of_neg (by simp [hx])]

theorem dropWhile_head_ne (c : Char) (l : List Char)
    (h : l.head? ≠ some c) : l.dropWhile (fun x => x == c) = l := by
  cases l with
  | nil => rfl
  | cons x tl =>
    have hx : ¬ x = c := fun hc => h (by simp [hc])
    rw [List.dropWhile_cons_of_neg (by simp [hx])]

/-- n data tokens alternating between plus and minus, so every maximal
run has length one and the translator folds each into its own op. -/
def altChars : Nat → List Char
  | 0 => []
  | n + 1 => (if n % 2 = 0 then '+' else '-') :: altChars n

/-- The n single-step data ops the translator folds `altChars n`
into. -/
def altOps : Nat → List BfOp
  | 0 => []
  | n + 1 => ⟨if n % 2 = 0 then .IncData else .DecData, 1⟩ :: altOps n

theorem altChars_length (n : Nat) : (altChars n).length = n := by
  induction n with
  | zero => rfl
  | succ n ih => simp [altChars, ih]

theorem altOps_length (n : Nat) : (altOps n).length = n := by
  induction n with
  | zero => rfl
  | succ n ih => simp [altOps, ih]

theorem altChars_tokens (n : Nat) : ∀ c ∈ altChars n, c ∈ TOKENS := by
  induction n with
  | zero => simp [altChars]
  | succ n ih =>
    intro c hc
    rcases List.mem_cons.mp hc with rfl | hc'
    · split <;> decide
    · exact ih c hc'

theorem altChars_balanced (n : Nat) : ∀ (rest : List Char) (d : Nat),
    bfBalanced (altChars n ++ rest) d = bfBalanced rest d := by
  induction n with
  | zero => intro rest d; rfl
  | succ n ih =>
    intro rest d
    show bfBalanced ((if n % 2 = 0 then '+' else '-') ::
      (altChars n ++ rest)) d = _
    rw [bfBalanced_nonbracket _ (by split <;> decide) (by split <;> decide),
      ih]

/-- Translating an alternating block folds it into one op per token:
each run has length one, so pc advances by one and one op is appended
per character. -/
theorem translateGo_altChars :
    ∀ (n : Nat) (rest : List Char) (pc : Nat) (res : List BfOp)
      (stack : List Nat) (fuel : Nat),
      rest.head? ≠ some '+' → rest.head? ≠ some '-' →
      translateGo (fuel + n) (altChars n ++ rest) pc res stack =
        translateGo fuel rest (pc + n) (res ++ altOps n) stack := by
  intro n
  induction n with
  | zero =>
    intro rest pc res stack fuel h1 h2
    simp [altChars, altOps]
  | succ n ih =>
    intro rest pc res stack fuel h1 h2
    have hknd : tokenKind (if n % 2 = 0 then '+' else '-') =
        some (if n % 2 = 0 then BfOpKind.IncData else BfOpKind.DecData) := by
      split <;> rfl
    have hc1 : ¬ (if n % 2 = 0 then '+' else '-') = '[' := by
      split <;> decide
    have hc2 : ¬ (if n % 2 = 0 then '+' else '-') = ']' := by
      split <;> decide
    have hhead : (altChars n ++ rest).head? ≠
        some (if n % 2 = 0 then '+' else '-') := by
      cases n with
      | zero =>
        simp only [altChars, List.nil_append, Nat.zero_mod, if_pos rfl]
        exact h1
      | succ m =>
        show ((if m % 2 = 0 then '+' else '-') ::
          (altChars m ++ rest)).head? ≠ _
        simp only [List.head?_cons, ne_eq, Option.some.injEq]
        rcases Nat.mod_two_eq_zero_or_one m with hm | hm
        · have hm1 : (m + 1) % 2 = 1 := by omega
          simp [hm, hm1]
        · have hm1 : (m + 1) % 2 = 0 := by omega
          simp [hm, hm1]
    show translateGo (fuel + (n + 1))
      ((if n % 2 = 0 then '+' else '-') :: (altChars n ++ rest)) pc res
      stack = _
    rw [show fuel + (n + 1) = (fuel + n) + 1 from by ring]
    rw [translateGo_run (fuel + n) pc _ (altChars n ++ rest) res stack _
      hc1 hc2 hknd]
    rw [takeWhile_head_ne _ _ hhead, dropWhile_head_ne _ _ hhead]
    simp only [List.length_nil, Nat.add_zero]
    rw [i32cast_small 1 (by norm_num)]
    simp only [Nat.cast_one]
    rw [ih rest (pc + 1)
      (res ++ [(⟨if n % 2 = 0 then BfOpKind.IncData else BfOpKind.DecData,
        1⟩ : BfOp)])
      stack fuel h1 h2]
    rw [show (pc + 1) + n = pc + (n + 1) from by ring, ← List.append_cons]
    rfl

theorem close_ws_getD (res : List BfOp) :
    ((res ++ [(⟨.JumpIfDataZero, 0⟩ : BfOp)]) ++
      [(⟨.WriteStdout, 1⟩ : BfOp)]).getD res.length dfltOp =
      ⟨.JumpIfDataZero, 0⟩ := by
  rw [List.getD_append _ _ dfltOp res.length (by simp)]
  exact getD_append_sing res (⟨.JumpIfDataZero, 0⟩ : BfOp) dfltOp

theorem close_ws_getD_succ (res : List BfOp) :
    ((res ++ [(⟨.JumpIfDataZero, 0⟩ : BfOp)]) ++
      [(⟨.WriteStdout, 1⟩ : BfOp)]).getD (res.length + 1) dfltOp =
      ⟨.WriteStdout, 1⟩ := by
  have := getD_append_sing (res ++ [(⟨.JumpIfDataZero, 0⟩ : BfOp)])
    (⟨.WriteStdout, 1⟩ : BfOp) dfltOp
  simpa using this

theorem close_ws_length (res : List BfOp) :
    ((res ++ [(⟨.JumpIfDataZero, 0⟩ : BfOp)]) ++
      [(⟨.WriteStdout, 1⟩ : BfOp)]).length = res.length + 2 := by
  simp

/-- A closed loop whose body is the single WriteStdout op matches no
optimizer idiom. -/
theorem optimize_close_ws (res : List BfOp) :
    optimize_loop ((res ++ [(⟨.JumpIfDataZero, 0⟩ : BfOp)]) ++
      [(⟨.WriteStdout, 1⟩ : BfOp)]) res.length = [] := by
  simp only [optimize_loop]
  rw [close_ws_length, show res.length + 2 - res.length = 2 from by omega,
    if_pos rfl, close_ws_getD_succ res]

/-- Translating the suffix "[.]" with exactly one pending stack slot:
push the placeholder, fold the write, and finalize the generic close,
patching the placeholder with the i32 cast of the IR length. -/
theorem translateGo_finish (fuel pc : Nat) (res : List BfOp) :
    translateGo (fuel + 3) ['[', '.', ']'] pc res [] =
      Except.ok ((((res ++ [(⟨.JumpIfDataZero, 0⟩ : BfOp)]) ++
        [(⟨.WriteStdout, 1⟩ : BfOp)]).set res.length
          ⟨.JumpIfDataZero, i32cast (res.length + 2)⟩) ++
        [⟨.JumpIfDataNotZero, i32cast res.length⟩]) := by
  show translateGo ((fuel + 2) + 1) ('[' :: ['.', ']']) pc res [] = _
  rw [translateGo_open (fuel + 2) pc ['.', ']'] res []]
  show translateGo ((fuel + 1) + 1) ('.' :: [']']) (pc + 1)
    (res ++ [(⟨.JumpIfDataZero, 0⟩ : BfOp)]) [res.length] = _
  rw [translateGo_run (fuel + 1) (pc + 1) '.' [']']
    (res ++ [(⟨.JumpIfDataZero, 0⟩ : BfOp)]) [res.length] .WriteStdout
    (by decide) (by decide) rfl]
  rw [takeWhile_head_ne '.' [']'] (by decide),
    dropWhile_head_ne '.' [']'] (by decide)]
  simp only [List.length_nil, Nat.add_zero]
  rw [i32cast_small 1 (by norm_num)]
  simp only [Nat.cast_one]
  rw [translateGo_close_generic fuel (pc + 1 + 1) []
    ((res ++ [(⟨.JumpIfDataZero, 0⟩ : BfOp)]) ++ [(⟨.WriteStdout, 1⟩ : BfOp)])
    res.length [] (by rw [optimize_close_ws]; rfl)]
  rw [translateGo_nil]
  rw [close_ws_getD res, close_ws_length res]

/-- The IR the translator produces for 2^31 alternating data tokens
followed by "[.]": the close patches the placeholder with the wrapped
index `i32cast (2^31 + 2)` and appends a JumpIfDataNotZero whose
argument is `i32cast (2^31)`. -/
def badIR : List BfOp :=
  (((altOps (2 ^ 31) ++ [(⟨.JumpIfDataZero, 0⟩ : BfOp)]) ++
    [(⟨.WriteStdout, 1⟩ : BfOp)]).set (2 ^ 31)
      ⟨.JumpIfDataZero, i32cast (2 ^ 31 + 2)⟩) ++
    [⟨.JumpIfDataNotZero, i32cast (2 ^ 31)⟩]

theorem translate_altBig :
    translate (altChars (2 ^ 31) ++ ['[', '.', ']']) = Except.ok badIR := by
  unfold translate badIR
  have hlen : (altChars (2 ^ 31) ++ ['[', '.', ']']).length = 3 + 2 ^ 31 := by
    rw [List.length_append, altChars_length]
    rfl
  rw [hlen]
  rw [translateGo_altChars (2 ^ 31) ['[', '.', ']'] 0 [] [] 3 (by decide)
    (by decide)]
  rw [List.nil_append]
  show translateGo (0 + 3) ['[', '.', ']'] (0 + 2 ^ 31) (altOps (2 ^ 31)) []
    = _
  rw [translateGo_finish 0 (0 + 2 ^ 31) (altOps (2 ^ 31))]
  rw [altOps_length]

theorem badIR_length : badIR.length = 2 ^ 31 + 3 := by
  unfold badIR
  rw [List.length_append, List.length_set, close_ws_length, altOps_length]
  rfl

theorem badIR_getD : badIR.getD (2 ^ 31) dfltOp =
    ⟨.JumpIfDataZero, i32cast (2 ^ 31 + 2)⟩ := by
  unfold badIR
  rw [List.getD_append _ _ dfltOp (2 ^ 31)
    (by rw [List.length_set, close_ws_length, altOps_length]; omega)]
  refine getD_set_eq _ dfltOp _ (2 ^ 31) ?_
  rw [close_ws_length, altOps_length]
  omega

/-- C7 counterexample: on 2^31 alternating data tokens followed by
"[.]" — an all-token, balanced input — translation succeeds, but the
placeholder patched at IR index 2^31 receives the wrapped argument
`(2^31 + 2) as i32`, a negative value, so it matches no
JumpIfDataNotZero index at all: the original claim, unbounded in the
input length, fails on this input. -/
theorem translate_brackets_matched_counterexample :
    (∀ c ∈ altChars (2 ^ 31) ++ ['[', '.', ']'], c ∈ TOKENS) ∧
    bfBalanced (altChars (2 ^ 31) ++ ['[', '.', ']']) 0 = true ∧
    ∃ res, translate (altChars (2 ^ 31) ++ ['[', '.', ']']) =
        Except.ok res ∧
      ∃ i, i < res.length ∧
        (res.getD i dfltOp).kind = .JumpIfDataZero ∧
        ¬ ∃ j, pairOK res i j := by
  refine ⟨?_, ?_, badIR, translate_altBig, 2 ^ 31, ?_, ?_, ?_⟩
  · intro c hc
    rcases List.mem_append.mp hc with hc' | hc'
    · exact altChars_tokens _ c hc'
    · simp only [List.mem_cons, List.not_mem_nil, or_false] at hc'
      rcases hc' with rfl | rfl | rfl <;> decide
  · rw [altChars_balanced]
    rfl
  · rw [badIR_length]
    omega
  · rw [badIR_getD]
  · intro hex
    obtain ⟨j, hp⟩ := hex
    simp only [pairOK] at hp
    obtain ⟨hij, hjlt, hi2, hj2⟩ := hp
    rw [badIR_getD] at hi2
    have harg : i32cast (2 ^ 31 + 2) = (j : Int) := by
      have := congrArg BfOp.argument hi2
      simpa using this
    have hneg : i32cast (2 ^ 31 + 2) = (2 ^ 31 + 2 : Int) - 2 ^ 32 := by
      unfold i32cast
      rw [Nat.mod_eq_of_lt (by norm_num), if_neg (by norm_num)]
      norm_num
    rw [hneg] at harg
    omega

end BfJit
